import Mathlib

set_option maxHeartbeats 1600000

/-!
Verification of the red-black tree (`src/rbtree.h`) and the map layer
(`src/map.h`) of the cutils repository, through a shallow embedding.

The C code is an intrusive pointer-based red-black tree; the spec states
that the tree owns all of its nodes exclusively (no aliasing of node
storage), so a node graph is embedded as an inductive tree, and the
parent pointers used by the fixup loops are embedded as an explicit
zipper context (list of frames from the focused node up to the root).
The stack-local sentinel node that `rbtree_delete` attaches transiently
is embedded as a dedicated `dummy` constructor.
-/

/-- Node colour: `RB_RED` / `RB_BLACK` from `rbtree.h`. -/
inductive Col where
  | red
  | black
deriving DecidableEq, Repr

/-- The node graph hanging off a `struct rbnode *`: `nil` is the null
pointer, `node c l k r` a `struct rbnode` with colour `c`, key `k` and
children `l`, `r`, and `dummy` the transient stack-local sentinel
(`struct rbnode dummy = { .col = RB_BLACK }`) used by `rbtree_delete`.
The opaque data payload plays no role in any claim and is omitted. -/
inductive RBT (α : Type) where
  | nil
  | dummy
  | node (c : Col) (l : RBT α) (k : α) (r : RBT α)
deriving DecidableEq, Repr

/-- Which child slot of its parent a node occupies (`_rbnode_which_child`). -/
inductive Dir where
  | left
  | right
deriving DecidableEq, Repr

/-- One step of the parent-pointer chain: the focused subtree hangs off a
parent node of colour `c` and key `k` in child slot `d`; `other` is the
parent's other subtree. -/
structure Frame (α : Type) where
  d : Dir
  c : Col
  k : α
  other : RBT α
deriving DecidableEq, Repr

/-- Embedding of `rb_is_red`: the C code only calls it on non-null pointers; the
sentinel's colour field is `RB_BLACK`. -/
def RBT.isRed : RBT α → Bool
  | .node .red _ _ _ => true
  | _ => false

/-- Embedding of `rb_is_black(n)`: true for the null pointer and for black nodes. -/
def RBT.isBlack (t : RBT α) : Bool := !t.isRed

/-- Embedding of `rb_set_color(n, RB_BLACK)` on the focused node. -/
def RBT.setBlack : RBT α → RBT α
  | .node _ l k r => .node .black l k r
  | t => t

/-- Colour read through `rb_is_black` or `rb_get_color`; null reads as black. -/
def RBT.rootCol : RBT α → Col
  | .node c _ _ _ => c
  | _ => .black

/-- The key stored in the node a pointer designates (`rbnode_get_key`). -/
def RBT.rootKey : RBT α → Option α
  | .node _ _ k _ => some k
  | _ => none

/-- Read a child field of a node (`n->l` / `n->r`); null on non-nodes. -/
def RBT.child : RBT α → Dir → RBT α
  | .node _ l _ _, .left => l
  | .node _ _ _ r, .right => r
  | _, _ => .nil

/-- Number of live nodes reachable from a pointer (the sentinel is not a
live node). -/
def RBT.sizeT : RBT α → Nat
  | .node _ l _ r => l.sizeT + r.sizeT + 1
  | _ => 0

/-- In-order key sequence. -/
def RBT.inorder : RBT α → List α
  | .node _ l k r => l.inorder ++ k :: r.inorder
  | _ => []

/-- No occurrence of the delete sentinel anywhere in the node graph. -/
def RBT.noDummy : RBT α → Bool
  | .nil => true
  | .dummy => false
  | .node _ l _ r => l.noDummy && r.noDummy

/-- Rebuild one parent node around a focused subtree (inverse of
following a parent pointer). -/
def plugOne (f : Frame α) (t : RBT α) : RBT α :=
  match f.d with
  | .left => .node f.c t f.k f.other
  | .right => .node f.c f.other f.k t

/-- Rebuild the whole tree from a context (innermost frame first) and the
focused subtree: the tree `t->root` points at. -/
def plug (ctx : List (Frame α)) (t : RBT α) : RBT α :=
  ctx.foldl (fun s f => plugOne f s) t

/-- The descent loop of `rbtree_insert`: walk down from the root
comparing the new key with each node's key (`> 0` goes right, otherwise
left), recording the parent chain; stops at the null slot where the new
node will be placed. The sentinel never occurs in a tree `rbtree_insert`
runs on (it is local to one `rbtree_delete` call), so it is treated as an
empty slot. -/
def descendIns (cmp : α → α → Int) : RBT α → α → List (Frame α) → List (Frame α)
  | .node c l k r, q, ctx =>
    if cmp q k > 0 then descendIns cmp r q (⟨.right, c, k, l⟩ :: ctx)
    else descendIns cmp l q (⟨.left, c, k, r⟩ :: ctx)
  | _, _, ctx => ctx

/-- Embedding of `_rbtree_insert_fixup`, with the parent-pointer walk rendered as
recursion on the context. Loop guard: `n->p && rb_is_red(n->p)`; when the
guard fails the root of the rebuilt tree is recoloured black
(`rb_set_color(t->root, RB_BLACK)`).

In the uncle-red case the parent and uncle are blackened, the grandparent
reddened, and the loop continues from the grandparent. In the uncle-black
cases an optional triangle rotation at the parent is followed by a
recolouring and a rotation at the grandparent, after which the new parent
of `n` is black, so the loop exits and the root is blackened. The C code
asserts `n->p != t->root` inside the loop (a red parent is never the
root); the corresponding unreachable branch below exits the loop. -/
def _rbtree_insert_fixup : List (Frame α) → RBT α → RBT α
  | [], n => n.setBlack
  | ⟨pd, .black, pk, po⟩ :: rest, n =>
    (plug (⟨pd, .black, pk, po⟩ :: rest) n).setBlack
  | ⟨pd, .red, pk, po⟩ :: [], n =>
    -- unreachable: RB_ASSERT(n->p != t->root) fails here
    (plug [⟨pd, .red, pk, po⟩] n).setBlack
  | ⟨pd, .red, pk, po⟩ :: ⟨.left, gc, gk, go⟩ :: rest', n =>
    -- the parent is the grandparent's left child; the uncle is go
    if go.isRed then
      _rbtree_insert_fixup rest'
        (.node .red (plugOne ⟨pd, .black, pk, po⟩ n) gk go.setBlack)
    else
      match pd with
      | .left =>
        (plug rest' (.node .black n pk (.node .red po gk go))).setBlack
      | .right =>
        match n with
        | .node _ nl nk nr =>
          -- triangle rotation at the parent (which keeps its colour, red
          -- in this branch), then recolouring and rotation at the
          -- grandparent
          (plug rest'
            (.node .black (.node .red po pk nl) nk (.node .red nr gk go))).setBlack
        | n =>
          -- unreachable: the focused node is always a live node
          (plug rest' (plugOne ⟨.left, gc, gk, go⟩ (plugOne ⟨pd, .red, pk, po⟩ n))).setBlack
  | ⟨pd, .red, pk, po⟩ :: ⟨.right, gc, gk, go⟩ :: rest', n =>
    -- the parent is the grandparent's right child; the uncle is go
    if go.isRed then
      _rbtree_insert_fixup rest'
        (.node .red go.setBlack gk (plugOne ⟨pd, .black, pk, po⟩ n))
    else
      match pd with
      | .right =>
        (plug rest' (.node .black (.node .red go gk po) pk n)).setBlack
      | .left =>
        match n with
        | .node _ nl nk nr =>
          (plug rest'
            (.node .black (.node .red go gk nl) nk (.node .red nr pk po))).setBlack
        | n =>
          -- unreachable: the focused node is always a live node
          (plug rest' (plugOne ⟨.right, gc, gk, go⟩ (plugOne ⟨pd, .red, pk, po⟩ n))).setBlack

/-- Embedding of `rbtree_insert` on the node graph: descend to the empty slot, place a
new node there (`rbnode_new` colours it red when it has a parent, black
when it becomes the root), and run the fixup. The key bytes are copied
into the node (`memcpy`), embedded as the new node storing `q`. -/
def rbtree_insert (cmp : α → α → Int) (t : RBT α) (q : α) : RBT α :=
  let ctx := descendIns cmp t q []
  _rbtree_insert_fixup ctx (.node (if ctx.isEmpty then .black else .red) .nil q .nil)

/-- Embedding of `rbtree_search`: three-way descent, non-mutating; returns the node
whose key compares equal, or null. -/
def rbtree_search (cmp : α → α → Int) : RBT α → α → Option (RBT α)
  | .node c l k r, q =>
    if cmp q k < 0 then rbtree_search cmp l q
    else if cmp q k > 0 then rbtree_search cmp r q
    else some (.node c l k r)
  | _, _ => none

/-- Replace the focused node's subtree position when walking to a node:
`zoomAux t p ctx` follows the child directions `p` from `t`, collecting
the parent chain (innermost frame first) on top of `ctx`. A pointer to a
node of the tree is embedded as the valid path leading to it. -/
def zoomAux : RBT α → List Dir → List (Frame α) → Option (List (Frame α) × RBT α)
  | t, [], ctx => some (ctx, t)
  | .node c l k r, .left :: p, ctx => zoomAux l p (⟨.left, c, k, r⟩ :: ctx)
  | .node c l k r, .right :: p, ctx => zoomAux r p (⟨.right, c, k, l⟩ :: ctx)
  | _, _ :: _, _ => none

/-- The zipper at the node designated by path `p` from the root. -/
def zoom (t : RBT α) (p : List Dir) : Option (List (Frame α) × RBT α) :=
  zoomAux t p []

/-- Embedding of `rbtree_min` on a subtree, together with the splice bookkeeping of
`rbtree_delete`: returns the minimum's key and colour, its right subtree,
and the left-spine parent chain from the minimum's position (innermost
first) on top of `acc`. -/
def extractMin : RBT α → List (Frame α) → Option (α × Col × RBT α × List (Frame α))
  | .node c .nil k r, acc => some (k, c, r, acc)
  | .node c l k r, acc => extractMin l (⟨.left, c, k, r⟩ :: acc)
  | _, _ => none

/-- The final `rbtree_transplant(t, &dummy, NULL)` of `rbtree_delete`:
detach the sentinel, wherever the fixup left it, replacing it by the null
pointer. -/
def removeDummy : RBT α → RBT α
  | .node c l k r => .node c (removeDummy l) k (removeDummy r)
  | _ => .nil

/-- One iteration of the `_rbtree_delete_fixup` loop for a left-child
focus (sibling `w = n->p->r = pf.other`), after the red-sibling case 1
has already been resolved, so `w` is black. `.inl n2` means case 2 ran
(sibling recoloured red, focus moved to the parent node `n2`, loop
continues); `.inr sub` means cases 3/4 ran and the loop terminates with
`sub` at the parent's position and `n = t->root`, so the caller blackens
the root of the rebuilt tree. The C code asserts `w` is a (black) node;
the non-node branches are unreachable. -/
def delFixStepL (pc : Col) (pk : α) (w : RBT α) (n : RBT α) : RBT α ⊕ RBT α :=
  match w with
  | .node _ wl wk wr =>
    if wl.isBlack && wr.isBlack then
      .inl (.node pc n pk (.node .red wl wk wr))
    else
      match (if wr.isBlack then
               match wl with
               | .node _ a x b => RBT.node .black a x (.node .red b wk wr)
               | _ => RBT.node .black wl wk wr
             else RBT.node .black wl wk wr) with
      | .node _ w2l w2k w2r =>
        .inr (.node pc (.node .black n pk w2l) w2k w2r.setBlack)
      | _ => .inr (.node pc n pk w)
  | _ => .inr (.node pc n pk w)

/-- Mirror image of `delFixStepL` for a right-child focus
(sibling `w = n->p->l`). -/
def delFixStepR (pc : Col) (pk : α) (w : RBT α) (n : RBT α) : RBT α ⊕ RBT α :=
  match w with
  | .node _ wl wk wr =>
    if wl.isBlack && wr.isBlack then
      .inl (.node pc (.node .red wl wk wr) pk n)
    else
      match (if wl.isBlack then
               match wr with
               | .node _ e y f => RBT.node .black (.node .red wl wk e) y f
               | _ => RBT.node .black wl wk wr
             else RBT.node .black wl wk wr) with
      | .node _ w2l w2k w2r =>
        .inr (.node pc w2l.setBlack w2k (.node .black w2r pk n))
      | _ => .inr (.node pc w pk n)
  | _ => .inr (.node pc w pk n)

/-- Embedding of `_rbtree_delete_fixup` with the parent-pointer walk rendered as
recursion on the context. Loop guard: `n->p && rb_is_black(n)`; on exit
the focused node is recoloured black (`rb_set_color(n, RB_BLACK)`).

After the red-sibling case 1 (recolour parent red and sibling black,
rotate at the parent towards the focus) the parent is red, so if case 2
follows, the focus moves to the red parent and the loop exits on the
re-check, blackening it; cases 3/4 terminate the loop by setting
`n = t->root`, after which the root is blackened. -/
def _rbtree_delete_fixup : List (Frame α) → RBT α → RBT α
  | [], n => n.setBlack
  | ⟨.left, pc, pk, po⟩ :: rest, n =>
    if n.isRed then plug (⟨.left, pc, pk, po⟩ :: rest) n.setBlack
    else
      match po with
      | .node .red wl wk wr =>
        match delFixStepL .red pk wl n with
        | .inl n2 => plug (⟨.left, .black, wk, wr⟩ :: rest) n2.setBlack
        | .inr sub => (plug (⟨.left, .black, wk, wr⟩ :: rest) sub).setBlack
      | po =>
        match delFixStepL pc pk po n with
        | .inl n2 => _rbtree_delete_fixup rest n2
        | .inr sub => (plug rest sub).setBlack
  | ⟨.right, pc, pk, po⟩ :: rest, n =>
    if n.isRed then plug (⟨.right, pc, pk, po⟩ :: rest) n.setBlack
    else
      match po with
      | .node .red wl wk wr =>
        match delFixStepR .red pk wr n with
        | .inl n2 => plug (⟨.right, .black, wk, wl⟩ :: rest) n2.setBlack
        | .inr sub => (plug (⟨.right, .black, wk, wl⟩ :: rest) sub).setBlack
      | po =>
        match delFixStepR pc pk po n with
        | .inl n2 => _rbtree_delete_fixup rest n2
        | .inr sub => (plug rest sub).setBlack

/-- Embedding of `rbtree_delete` of the node designated by path `p`: transplant
discipline with in-order successor, the sentinel standing in for an
absent replacement child, `_rbtree_delete_fixup` when the spliced-out
colour was black, and the final detachment of the sentinel. An invalid
node pointer is undefined behaviour in the C code; the embedding leaves
the tree unchanged there. -/
def rbtree_delete (t : RBT α) (p : List Dir) : RBT α :=
  match zoom t p with
  | some (ctx, .node nc nl _nk nr) =>
    match nl, nr with
    | .nil, .nil =>
      removeDummy (if nc = .black then _rbtree_delete_fixup ctx .dummy else plug ctx .dummy)
    | .nil, _ =>
      if nc = .black then _rbtree_delete_fixup ctx nr else plug ctx nr
    | _, .nil =>
      if nc = .black then _rbtree_delete_fixup ctx nl else plug ctx nl
    | _, _ =>
      match extractMin nr [] with
      | some (sk, sc, sr, inner) =>
        let fullCtx := inner ++ ⟨.right, nc, sk, nl⟩ :: ctx
        match sr with
        | .nil =>
          removeDummy
            (if sc = .black then _rbtree_delete_fixup fullCtx .dummy else plug fullCtx .dummy)
        | _ =>
          if sc = .black then _rbtree_delete_fixup fullCtx sr else plug fullCtx sr
      | none => t
  | _ => t

/-- The integer comparator used by the repository's examples and by the
concrete witnesses below. -/
def intCmp (a b : Int) : Int := a - b

/-- The observable fields of `struct rbtree` for the claims: the root
node graph and the `cnt` field. -/
structure RBTreeSt (α : Type) where
  root : RBT α
  cnt : Nat
deriving DecidableEq, Repr

/-- Embedding of `rbtree_init`: zeroed tree, null root, count 0. -/
def rbtree_init : RBTreeSt α := ⟨.nil, 0⟩

/-- Embedding of `rbtree_insert` at the `struct rbtree` level: inserts and then
executes `t->cnt++`. -/
def rbtree_insert_st (cmp : α → α → Int) (s : RBTreeSt α) (q : α) : RBTreeSt α :=
  ⟨rbtree_insert cmp s.root q, s.cnt + 1⟩

/-- Embedding of `rbtree_delete` at the `struct rbtree` level: the function body
(lines 797-848 of `rbtree.h`) contains no update of `t->cnt`, so the
count field is left unchanged. -/
def rbtree_delete_st (s : RBTreeSt α) (p : List Dir) : RBTreeSt α :=
  ⟨rbtree_delete s.root p, s.cnt⟩

/-- The undefined behaviour `rbtree_insert` runs into when the allocator
hook returns null. -/
inductive CUndef where
  | nullDeref
deriving DecidableEq, Repr

/-- Embedding of `rbtree_insert` with the allocator hook's success made explicit.
`rbnode_new` returns null when `t->realloc` fails, but `rbtree_insert`
never tests its result: the very next statement is
`memcpy((char*)rbnode_get_key(t, *node), key, t->keysize)` with
`*node == NULL`, writing through a null-based pointer, and
`_rbtree_insert_fixup(t, NULL)` would then read `n->p` through null.
The failed path therefore reaches undefined behaviour instead of
returning an error with the tree intact. -/
def rbtree_insert_alloc (cmp : α → α → Int) (allocOk : Bool) (t : RBT α) (q : α) :
    Except CUndef (RBT α) :=
  let ctx := descendIns cmp t q []
  if allocOk then
    .ok (_rbtree_insert_fixup ctx (.node (if ctx.isEmpty then .black else .red) .nil q .nil))
  else
    .error .nullDeref

/-- Embedding of `rbtree_insert` together with a model of its return value. The C
function returns `*node`, where `node` is the address of the child slot
(`&parent->l` or `&parent->r`, or `&t->root`) found by the descent
*before* the fixup ran; the fixup's rotations may store a different node,
or the null pointer, in that slot. With pairwise distinct keys the slot's
owner is identified by the parent's key, so the model re-reads the slot
by searching for the recorded parent key in the post-fixup tree. -/
def rbtree_insert_ret (cmp : α → α → Int) (t : RBT α) (q : α) :
    RBT α × Option (RBT α) :=
  let ctx := descendIns cmp t q []
  let t2 := _rbtree_insert_fixup ctx (.node (if ctx.isEmpty then .black else .red) .nil q .nil)
  match ctx with
  | [] => (t2, some t2)
  | pf :: _ => (t2, (rbtree_search cmp t2 pf.k).map (fun p => p.child pf.d))

/-- The loop of `ullog2_ceil`: scan bit positions from 63 down; at the
highest set bit `i` return `i + (tmp != x)`. For `x = 0` the C code hits
`RB_ASSERT(0)`; the embedding returns 0 there. -/
def ullog2_go (x : Nat) : Nat → Nat
  | i + 1 =>
    if x &&& (1 <<< (i + 1)) != 0 then
      (i + 1) + (if x &&& (1 <<< (i + 1)) = x then 0 else 1)
    else ullog2_go x i
  | 0 =>
    if x &&& 1 != 0 then (if x &&& 1 = x then 0 else 1) else 0

/-- Embedding of `ullog2_ceil` from `rbtree.h`. -/
def ullog2_ceil (x : Nat) : Nat := ullog2_go x 63

/-- Embedding of `_rbtree_max_possible_height`: `2 * ullog2_ceil(t->cnt)`. -/
def _rbtree_max_possible_height (cnt : Nat) : Nat := 2 * ullog2_ceil cnt

/-- Embedding of `_rbtree_max_possible_leafs`: `1 << _rbtree_max_possible_height(t)`. -/
def _rbtree_max_possible_leafs (cnt : Nat) : Nat :=
  1 <<< _rbtree_max_possible_height cnt

/-- The stack capacity `rbtree_preorder` actually allocates: the source
line reads `stack_cap = 4048;//; _rbtree_max_possible_leafs(t);` — the
count-derived bound is commented out and a fixed constant is used,
whatever the tree's `cnt` is. -/
def rbtree_preorder_stack_cap (_cnt : Nat) : Nat := 4048

/-- The stack capacity `rbtree_postorder` allocates, recomputed from the
tree's current count. -/
def rbtree_postorder_stack_cap (cnt : Nat) : Nat := _rbtree_max_possible_leafs cnt

/-- The queue capacity `rbtree_levelorder` allocates, recomputed from the
tree's current count. -/
def rbtree_levelorder_queue_cap (cnt : Nat) : Nat := _rbtree_max_possible_leafs cnt

/-- Enqueue into the circular queue of `rbtree_levelorder`:
`queue[queue_end++] = v; if(queue_end == queue_cap) queue_end = 0;`. -/
def lvlEnq (cap : Nat) (q : List (RBT α)) (qe : Nat) (v : RBT α) :
    List (RBT α) × Nat :=
  let q2 := q.set qe v
  let qe2 := qe + 1
  (q2, if qe2 = cap then 0 else qe2)

/-- The `while(i)` loop of `rbtree_levelorder`. State: circular queue
`q` with write position `qe`, occupancy `i`, the keys of the nodes
dequeued so far (`visited`), and the callback invocations performed so
far (`calls`). The dequeue index is
`queue_end >= i ? queue_end - i : queue_cap + queue_end - i`. The
callback invocation in the source is commented out
(`//cb(n->data, user);`), so `calls` is never extended. `fuel` bounds the
number of iterations; one unit is consumed per dequeue, so any fuel of at
least the node count is enough. -/
def lvlLoop (cap : Nat) : Nat → List (RBT α) → Nat → Nat → List α → List α →
    List α × List α
  | 0, _, _, _, visited, calls => (visited, calls)
  | fuel + 1, q, qe, i, visited, calls =>
    if i = 0 then (visited, calls)
    else
      let idx := if qe ≥ i then qe - i else cap + qe - i
      let n := q.getD idx .nil
      let i2 := i - 1
      let visited2 := visited ++ n.rootKey.toList
      match n with
      | .node _ l _ r =>
        let s1 :=
          match l with
          | .nil => (q, qe, i2)
          | _ => let e := lvlEnq cap q qe l; (e.1, e.2, i2 + 1)
        let s2 :=
          match r with
          | .nil => s1
          | _ => let e := lvlEnq cap s1.1 s1.2.1 r; (e.1, e.2, s1.2.2 + 1)
        lvlLoop cap fuel s2.1 s2.2.1 s2.2.2 visited2 calls
      | _ => lvlLoop cap fuel q qe i2 visited2 calls

/-- Embedding of `rbtree_levelorder(t, cb, user)` on a tree with count field `cnt`:
allocates the circular queue, enqueues the root, and runs the loop.
Returns the keys of the nodes dequeued (in visit order) and the list of
callback invocations performed. -/
def rbtree_levelorder (t : RBT α) (cnt : Nat) : List α × List α :=
  let cap := rbtree_levelorder_queue_cap cnt
  let e := lvlEnq cap (List.replicate cap .nil) 0 t
  lvlLoop cap (t.sizeT + 1) e.1 e.2 1 [] []

/-- Embedding of `memcmp` over byte lists (the two fixed-size 8-byte prefix arrays):
sign of the first differing byte pair. -/
def memcmpM : List Nat → List Nat → Int
  | a :: as, b :: bs => if a = b then memcmpM as bs else (a : Int) - (b : Int)
  | _, _ => 0

/-- Embedding of `strcmp` over C strings embedded as their byte lists up to (not
including) the terminating null byte. -/
def strcmpM : List Nat → List Nat → Int
  | [], [] => 0
  | [], b :: _ => 0 - (b : Int)
  | a :: _, [] => (a : Int)
  | a :: as, b :: bs => if a = b then strcmpM as bs else (a : Int) - (b : Int)

/-- Embedding of `struct _map_key`: the 8-byte prefix array `hash` and the optional
overflow full-string pointer `key` (null when the string fits). -/
structure MapKey where
  hash : List Nat
  key : Option (List Nat)
deriving DecidableEq, Repr

/-- Embedding of `_map_key_init` on a string of length `len` (bytes without the
terminator): when `len > 8` the full string is kept (owned copy or
borrowed pointer — same bytes either way) and the first 8 bytes of it are
copied into `hash`; otherwise `hash` is the zero-filled array overwritten
by the string's `len` bytes and `key` stays null. Allocation failure is
outside this claim's scope and not modelled. -/
def _map_key_init (str : List Nat) : MapKey :=
  if str.length > 8 then
    { hash := str.take 8, key := some str }
  else
    { hash := str ++ List.replicate (8 - str.length) 0, key := none }

/-- Embedding of `_map_key_cmp`: byte-compare the two prefix arrays; only when they
are equal and both keys carry a full-string pointer, fall back to
`strcmp`; otherwise return the `memcmp` result (0 for equal prefixes). -/
def _map_key_cmp (a b : MapKey) : Int :=
  let result := memcmpM a.hash b.hash
  if result = 0 then
    match a.key, b.key with
    | some sa, some sb => strcmpM sa sb
    | _, _ => result
  else result

/-- Property 5 of the header comment: every path from a node to a
descendant leaf passes through the same number of black nodes. `Bal t h`
states that `t` is black-balanced with black-height `h` (black nodes on
any path from `t` to a null leaf, the node itself included). The
sentinel is not part of a well-formed tree. -/
inductive Bal : RBT α → Nat → Prop where
  | nil : Bal .nil 0
  | red {l : RBT α} {k : α} {r : RBT α} {h : Nat} :
      Bal l h → Bal r h → Bal (.node .red l k r) h
  | black {l : RBT α} {k : α} {r : RBT α} {h : Nat} :
      Bal l h → Bal r h → Bal (.node .black l k r) (h + 1)

/-- Property 4 of the header comment: a red node's children are black. -/
inductive RedInv : RBT α → Prop where
  | nil : RedInv .nil
  | red {l : RBT α} {k : α} {r : RBT α} :
      RedInv l → RedInv r → l.rootCol = .black → r.rootCol = .black →
      RedInv (.node .red l k r)
  | black {l : RBT α} {k : α} {r : RBT α} :
      RedInv l → RedInv r → RedInv (.node .black l k r)

/-- The number of black nodes on each root-to-leaf path, one list entry
per null leaf, in left-to-right order. -/
def blackHeights : RBT α → List Nat
  | .node c l _ r =>
    (blackHeights l ++ blackHeights r).map
      (fun b => b + (if c = .black then 1 else 0))
  | _ => [0]

/-- The contract of a `rbtree_cmp_proc`: a consistent three-way
comparator (the sign flips when the arguments swap, comparison is
reflexive and transitively consistent). -/
structure LawfulCmp (cmp : α → α → Int) : Prop where
  refl : ∀ a, cmp a a = 0
  flip : ∀ a b, cmp a b ≤ 0 ↔ 0 ≤ cmp b a
  le_trans : ∀ a b c, cmp a b ≤ 0 → cmp b c ≤ 0 → cmp a c ≤ 0

/-- The pure shape effect of the descent of `rbtree_insert`: place the
subtree `s` at the null slot the descent finds (`> 0` goes right,
otherwise left). `rbtree_insert` is this with `s` the new node, before
the fixup reshapes the tree. -/
def insNF (cmp : α → α → Int) : RBT α → α → RBT α → RBT α
  | .node c l k r, q, s =>
    if cmp q k > 0 then .node c l k (insNF cmp r q s)
    else .node c (insNF cmp l q s) k r
  | _, _, s => s

/-- Black-height bookkeeping for a context: `CtxBal ctx h H` states that
plugging any subtree of black-height `h` into `ctx` yields a tree of
black-height `H`. -/
inductive CtxBal : List (Frame α) → Nat → Nat → Prop where
  | nil {h : Nat} : CtxBal [] h h
  | red {d : Dir} {k : α} {o : RBT α} {rest : List (Frame α)} {h H : Nat} :
      Bal o h → CtxBal rest h H → CtxBal (⟨d, .red, k, o⟩ :: rest) h H
  | black {d : Dir} {k : α} {o : RBT α} {rest : List (Frame α)} {h H : Nat} :
      Bal o h → CtxBal rest (h + 1) H → CtxBal (⟨d, .black, k, o⟩ :: rest) h H

/-- The innermost frame, if any, is black. -/
def headColBlack : List (Frame α) → Prop
  | [] => True
  | f :: _ => f.c = .black

/-- Red-invariant bookkeeping for a context taken from a valid tree:
every frame's other subtree satisfies the red invariant, and a red frame
has a black-rooted other subtree and hangs off a black frame (a red node
is never the root: `RB_ASSERT(n->p != t->root)`). -/
inductive CtxRed : List (Frame α) → Prop where
  | nil : CtxRed []
  | black {d : Dir} {k : α} {o : RBT α} {rest : List (Frame α)} :
      RedInv o → CtxRed rest → CtxRed (⟨d, .black, k, o⟩ :: rest)
  | red {d : Dir} {k : α} {o : RBT α} {rest : List (Frame α)} :
      RedInv o → o.rootCol = .black → CtxRed rest → headColBlack rest →
      rest ≠ [] → CtxRed (⟨d, .red, k, o⟩ :: rest)

theorem plug_nil (s : RBT α) : plug [] s = s := rfl

theorem plug_cons (f : Frame α) (ctx : List (Frame α)) (s : RBT α) :
    plug (f :: ctx) s = plug ctx (plugOne f s) := rfl

theorem plugOne_left (c : Col) (k : α) (o s : RBT α) :
    plugOne ⟨.left, c, k, o⟩ s = .node c s k o := rfl

theorem plugOne_right (c : Col) (k : α) (o s : RBT α) :
    plugOne ⟨.right, c, k, o⟩ s = .node c o k s := rfl

theorem rootCol_setBlack (t : RBT α) : t.setBlack.rootCol = .black := by
  cases t <;> rfl

theorem redinv_setBlack {t : RBT α} (h : RedInv t) : RedInv t.setBlack := by
  cases h with
  | nil => exact .nil
  | red hl hr _ _ => exact .black hl hr
  | black hl hr => exact .black hl hr

theorem bal_setBlack {t : RBT α} {h : Nat} (hb : Bal t h) : ∃ h2, Bal t.setBlack h2 := by
  cases hb with
  | nil => exact ⟨0, .nil⟩
  | red hl hr => exact ⟨_, .black hl hr⟩
  | black hl hr => exact ⟨_, .black hl hr⟩

theorem bal_setBlack_red {t : RBT α} {h : Nat} (hb : Bal t h) (hc : t.rootCol = .red) :
    Bal t.setBlack (h + 1) := by
  cases hb with
  | nil => simp [RBT.rootCol] at hc
  | red hl hr => exact .black hl hr
  | black hl hr => simp [RBT.rootCol] at hc

theorem isRed_false_rootCol {t : RBT α} (h : t.isRed = false) : t.rootCol = .black := by
  cases t with
  | node c l k r => cases c <;> simp_all [RBT.isRed, RBT.rootCol]
  | _ => rfl

theorem isRed_true_rootCol {t : RBT α} (h : t.isRed = true) : t.rootCol = .red := by
  cases t with
  | node c l k r => cases c <;> simp_all [RBT.isRed, RBT.rootCol]
  | _ => simp [RBT.isRed] at h

theorem rootCol_red_node {t : RBT α} (h : t.rootCol = .red) :
    ∃ l k r, t = .node .red l k r := by
  cases t with
  | node c l k r =>
    cases c with
    | red => exact ⟨l, k, r, rfl⟩
    | black => simp [RBT.rootCol] at h
  | _ => simp [RBT.rootCol] at h

theorem bal_plug {ctx : List (Frame α)} {s : RBT α} {h H : Nat}
    (hc : CtxBal ctx h H) (hs : Bal s h) : Bal (plug ctx s) H := by
  induction hc generalizing s with
  | nil => exact hs
  | @red d k o rest h2 H2 ho hrest ih =>
    cases d with
    | left => exact ih (.red hs ho)
    | right => exact ih (.red ho hs)
  | @black d k o rest h2 H2 ho hrest ih =>
    cases d with
    | left => exact ih (.black hs ho)
    | right => exact ih (.black ho hs)

theorem plug_redinv {ctx : List (Frame α)} {s : RBT α}
    (hc : CtxRed ctx) (hs : RedInv s)
    (hd : headColBlack ctx ∨ s.rootCol = .black) : RedInv (plug ctx s) := by
  induction hc generalizing s with
  | nil => exact hs
  | @black d k o rest ho hrest ih =>
    refine ih ?_ ?_
    · cases d with
      | left => exact .black hs ho
      | right => exact .black ho hs
    · right
      cases d <;> rfl
  | @red d k o rest ho hob hrest hhead hne ih =>
    have hsb : s.rootCol = .black := by
      rcases hd with hd | hd
      · simp [headColBlack] at hd
      · exact hd
    refine ih ?_ (.inl hhead)
    cases d with
    | left => exact .red hs ho hsb hob
    | right => exact .red ho hs hob hsb

theorem insert_fixup_ok_aux (L : Nat) :
    ∀ (ctx : List (Frame α)) (n : RBT α) (h H : Nat),
      ctx.length ≤ L → Bal n h → CtxBal ctx h H → RedInv n → CtxRed ctx →
      n.rootCol = .red →
      ∃ H2, Bal (_rbtree_insert_fixup ctx n) H2 ∧ RedInv (_rbtree_insert_fixup ctx n) ∧
        (_rbtree_insert_fixup ctx n).rootCol = .black := by
  induction L with
  | zero =>
    intro ctx n h H hlen hb hcb hr hcr hcol
    have hctx : ctx = [] := List.length_eq_zero.mp (Nat.le_zero.mp hlen)
    subst hctx
    exact ⟨h + 1, bal_setBlack_red hb hcol, redinv_setBlack hr, rootCol_setBlack _⟩
  | succ L IH => ?_
  intro ctx n h H hlen hb hcb hr hcr hcol
  rcases ctx with _ | ⟨⟨pd, pc, pk, po⟩, rest⟩
  · have e : _rbtree_insert_fixup ([] : List (Frame α)) n = n.setBlack := rfl
    rw [e]
    exact ⟨h + 1, bal_setBlack_red hb hcol, redinv_setBlack hr, rootCol_setBlack _⟩
  · cases pc with
    | black =>
      have e : _rbtree_insert_fixup (⟨pd, .black, pk, po⟩ :: rest) n
          = (plug (⟨pd, .black, pk, po⟩ :: rest) n).setBlack := by
        simp [_rbtree_insert_fixup]
      rw [e]
      obtain ⟨H2, hB⟩ := bal_setBlack (bal_plug hcb hb)
      exact ⟨H2, hB, redinv_setBlack (plug_redinv hcr hr (.inl rfl)),
        rootCol_setBlack _⟩
    | red =>
      cases hcr with
      | red hpoR hpob hcr2 hhead hne =>
        rcases rest with _ | ⟨⟨gd, gc, gk, go⟩, rest'⟩
        · exact absurd rfl hne
        · have hgc : gc = .black := hhead
          subst hgc
          cases hcb with
          | red hpoB hcb2 =>
            cases hcb2 with
            | black hgoB hcb3 =>
              cases hcr2 with
              | black hgoR hcr3 =>
                cases gd with
                | left =>
                  by_cases hgo : go.isRed = true
                  · have e : _rbtree_insert_fixup
                        (⟨pd, .red, pk, po⟩ :: ⟨.left, .black, gk, go⟩ :: rest') n
                        = _rbtree_insert_fixup rest'
                            (.node .red (plugOne ⟨pd, .black, pk, po⟩ n) gk go.setBlack) := by
                      simp [_rbtree_insert_fixup, hgo]
                    rw [e]
                    have hplB : Bal (plugOne ⟨pd, .black, pk, po⟩ n) (h + 1) := by
                      cases pd
                      · exact .black hb hpoB
                      · exact .black hpoB hb
                    have hplR : RedInv (plugOne ⟨pd, .black, pk, po⟩ n) := by
                      cases pd
                      · exact .black hr hpoR
                      · exact .black hpoR hr
                    have hplC : (plugOne ⟨pd, .black, pk, po⟩ n).rootCol = .black := by
                      cases pd <;> rfl
                    exact IH rest' _ (h + 1) H
                      (by simp only [List.length_cons] at hlen; omega)
                      (.red hplB (bal_setBlack_red hgoB (isRed_true_rootCol hgo)))
                      hcb3
                      (.red hplR (redinv_setBlack hgoR) hplC (rootCol_setBlack _))
                      hcr3 rfl
                  · have hgob : go.rootCol = .black :=
                      isRed_false_rootCol (by simpa using hgo)
                    cases pd with
                    | left =>
                      have e : _rbtree_insert_fixup
                          (⟨.left, .red, pk, po⟩ :: ⟨.left, .black, gk, go⟩ :: rest') n
                          = (plug rest'
                              (.node .black n pk (.node .red po gk go))).setBlack := by
                        simp [_rbtree_insert_fixup, hgo]
                      rw [e]
                      obtain ⟨H2, hB⟩ :=
                        bal_setBlack (bal_plug hcb3 (.black hb (.red hpoB hgoB)))
                      exact ⟨H2, hB,
                        redinv_setBlack (plug_redinv hcr3
                          (.black hr (.red hpoR hgoR hpob hgob)) (.inr rfl)),
                        rootCol_setBlack _⟩
                    | right =>
                      obtain ⟨nl, nk, nr, rfl⟩ := rootCol_red_node hcol
                      cases hb with
                      | red hnlB hnrB =>
                        cases hr with
                        | red hnlR hnrR hnlc hnrc =>
                          have e : _rbtree_insert_fixup
                              (⟨.right, .red, pk, po⟩ :: ⟨.left, .black, gk, go⟩ :: rest')
                              (.node .red nl nk nr)
                              = (plug rest'
                                  (.node .black (.node .red po pk nl) nk
                                    (.node .red nr gk go))).setBlack := by
                            simp [_rbtree_insert_fixup, hgo]
                          rw [e]
                          obtain ⟨H2, hB⟩ :=
                            bal_setBlack (bal_plug hcb3
                              (.black (.red hpoB hnlB) (.red hnrB hgoB)))
                          exact ⟨H2, hB,
                            redinv_setBlack (plug_redinv hcr3
                              (.black (.red hpoR hnlR hpob hnlc)
                                (.red hnrR hgoR hnrc hgob)) (.inr rfl)),
                            rootCol_setBlack _⟩
                | right =>
                  by_cases hgo : go.isRed = true
                  · have e : _rbtree_insert_fixup
                        (⟨pd, .red, pk, po⟩ :: ⟨.right, .black, gk, go⟩ :: rest') n
                        = _rbtree_insert_fixup rest'
                            (.node .red go.setBlack gk (plugOne ⟨pd, .black, pk, po⟩ n)) := by
                      simp [_rbtree_insert_fixup, hgo]
                    rw [e]
                    have hplB : Bal (plugOne ⟨pd, .black, pk, po⟩ n) (h + 1) := by
                      cases pd
                      · exact .black hb hpoB
                      · exact .black hpoB hb
                    have hplR : RedInv (plugOne ⟨pd, .black, pk, po⟩ n) := by
                      cases pd
                      · exact .black hr hpoR
                      · exact .black hpoR hr
                    have hplC : (plugOne ⟨pd, .black, pk, po⟩ n).rootCol = .black := by
                      cases pd <;> rfl
                    exact IH rest' _ (h + 1) H
                      (by simp only [List.length_cons] at hlen; omega)
                      (.red (bal_setBlack_red hgoB (isRed_true_rootCol hgo)) hplB)
                      hcb3
                      (.red (redinv_setBlack hgoR) hplR (rootCol_setBlack _) hplC)
                      hcr3 rfl
                  · have hgob : go.rootCol = .black :=
                      isRed_false_rootCol (by simpa using hgo)
                    cases pd with
                    | right =>
                      have e : _rbtree_insert_fixup
                          (⟨.right, .red, pk, po⟩ :: ⟨.right, .black, gk, go⟩ :: rest') n
                          = (plug rest'
                              (.node .black (.node .red go gk po) pk n)).setBlack := by
                        simp [_rbtree_insert_fixup, hgo]
                      rw [e]
                      obtain ⟨H2, hB⟩ :=
                        bal_setBlack (bal_plug hcb3 (.black (.red hgoB hpoB) hb))
                      exact ⟨H2, hB,
                        redinv_setBlack (plug_redinv hcr3
                          (.black (.red hgoR hpoR hgob hpob) hr) (.inr rfl)),
                        rootCol_setBlack _⟩
                    | left =>
                      obtain ⟨nl, nk, nr, rfl⟩ := rootCol_red_node hcol
                      cases hb with
                      | red hnlB hnrB =>
                        cases hr with
                        | red hnlR hnrR hnlc hnrc =>
                          have e : _rbtree_insert_fixup
                              (⟨.left, .red, pk, po⟩ :: ⟨.right, .black, gk, go⟩ :: rest')
                              (.node .red nl nk nr)
                              = (plug rest'
                                  (.node .black (.node .red go gk nl) nk
                                    (.node .red nr pk po))).setBlack := by
                            simp [_rbtree_insert_fixup, hgo]
                          rw [e]
                          obtain ⟨H2, hB⟩ :=
                            bal_setBlack (bal_plug hcb3
                              (.black (.red hgoB hnlB) (.red hnrB hpoB)))
                          exact ⟨H2, hB,
                            redinv_setBlack (plug_redinv hcr3
                              (.black (.red hgoR hnlR hgob hnlc)
                                (.red hnrR hpoR hnrc hpob)) (.inr rfl)),
                            rootCol_setBlack _⟩


theorem insert_fixup_ok {ctx : List (Frame α)} {n : RBT α} {h H : Nat}
    (hb : Bal n h) (hcb : CtxBal ctx h H) (hr : RedInv n) (hcr : CtxRed ctx)
    (hcol : n.rootCol = .red) :
    ∃ H2, Bal (_rbtree_insert_fixup ctx n) H2 ∧ RedInv (_rbtree_insert_fixup ctx n) ∧
      (_rbtree_insert_fixup ctx n).rootCol = .black :=
  insert_fixup_ok_aux ctx.length ctx n h H (Nat.le_refl _) hb hcb hr hcr hcol

theorem descend_ok (cmp : α → α → Int) (q : α) :
    ∀ (t : RBT α) (acc : List (Frame α)) (h H : Nat),
      Bal t h → CtxBal acc h H → RedInv t → CtxRed acc →
      (t.rootCol = .red → headColBlack acc ∧ acc ≠ []) →
      CtxBal (descendIns cmp t q acc) 0 H ∧ CtxRed (descendIns cmp t q acc) := by
  intro t
  induction t with
  | nil =>
    intro acc h H hb hcb hr hcr _
    cases hb
    exact ⟨hcb, hcr⟩
  | dummy =>
    intro acc h H hb _ _ _ _
    cases hb
  | node c l k r ihl ihr =>
    intro acc h H hb hcb hr hcr hred
    by_cases hcmp : cmp q k > 0
    · have e : descendIns cmp (.node c l k r) q acc
          = descendIns cmp r q (⟨.right, c, k, l⟩ :: acc) := by
        simp [descendIns, hcmp]
      rw [e]
      cases c with
      | black =>
        cases hb with
        | black hlB hrB =>
          cases hr with
          | black hlR hrR =>
            exact ihr _ _ H hrB (.black hlB hcb) hrR (.black hlR hcr)
              (fun _ => ⟨rfl, by simp⟩)
      | red =>
        cases hb with
        | red hlB hrB =>
          cases hr with
          | red hlR hrR hlc hrc =>
            obtain ⟨hhead, hne⟩ := hred rfl
            exact ihr _ _ H hrB (.red hlB hcb) hrR (.red hlR hlc hcr hhead hne)
              (fun hx => absurd (hrc.symm.trans hx) (by simp))
    · have e : descendIns cmp (.node c l k r) q acc
          = descendIns cmp l q (⟨.left, c, k, r⟩ :: acc) := by
        simp [descendIns, hcmp]
      rw [e]
      cases c with
      | black =>
        cases hb with
        | black hlB hrB =>
          cases hr with
          | black hlR hrR =>
            exact ihl _ _ H hlB (.black hrB hcb) hlR (.black hrR hcr)
              (fun _ => ⟨rfl, by simp⟩)
      | red =>
        cases hb with
        | red hlB hrB =>
          cases hr with
          | red hlR hrR hlc hrc =>
            obtain ⟨hhead, hne⟩ := hred rfl
            exact ihl _ _ H hlB (.red hrB hcb) hlR (.red hrR hrc hcr hhead hne)
              (fun hx => absurd (hlc.symm.trans hx) (by simp))

theorem rbtree_insert_ok (cmp : α → α → Int) {t : RBT α} {H : Nat}
    (hb : Bal t H) (hr : RedInv t) (hc : t.rootCol = .black) (q : α) :
    ∃ H2, Bal (rbtree_insert cmp t q) H2 ∧ RedInv (rbtree_insert cmp t q) ∧
      (rbtree_insert cmp t q).rootCol = .black := by
  obtain ⟨hcb, hcr⟩ := descend_ok cmp q t [] H H hb .nil hr .nil
    (fun hx => absurd (hc.symm.trans hx) (by simp))
  by_cases hne : (descendIns cmp t q []).isEmpty
  · have hctxe : descendIns cmp t q [] = [] := by
      simpa using hne
    have e : rbtree_insert cmp t q = RBT.node .black .nil q .nil := by
      simp [rbtree_insert, hctxe]
      rfl
    rw [e]
    exact ⟨1, .black .nil .nil, .black .nil .nil, rfl⟩
  · have hne2 : (descendIns cmp t q []).isEmpty = false := by
      simpa using hne
    have e : rbtree_insert cmp t q
        = _rbtree_insert_fixup (descendIns cmp t q []) (.node .red .nil q .nil) := by
      simp [rbtree_insert, hne2]
    rw [e]
    exact insert_fixup_ok (.red .nil .nil) hcb (.red .nil .nil rfl rfl) hcr rfl

theorem inorder_setBlack (t : RBT α) : t.setBlack.inorder = t.inorder := by
  cases t <;> rfl

theorem plugOne_inorder_congr {a b : RBT α} (f : Frame α)
    (h : a.inorder = b.inorder) : (plugOne f a).inorder = (plugOne f b).inorder := by
  obtain ⟨d, c, k, o⟩ := f
  cases d <;> simp [plugOne, RBT.inorder, h]

theorem plug_inorder_congr {a b : RBT α} (ctx : List (Frame α))
    (h : a.inorder = b.inorder) : (plug ctx a).inorder = (plug ctx b).inorder := by
  induction ctx generalizing a b with
  | nil => exact h
  | cons f rest ih => exact ih (plugOne_inorder_congr f h)

theorem insert_fixup_inorder_aux (L : Nat) :
    ∀ (ctx : List (Frame α)) (n : RBT α), ctx.length ≤ L →
      (_rbtree_insert_fixup ctx n).inorder = (plug ctx n).inorder := by
  induction L with
  | zero =>
    intro ctx n hlen
    have hctx : ctx = [] := List.length_eq_zero.mp (Nat.le_zero.mp hlen)
    subst hctx
    exact inorder_setBlack n
  | succ L IH => ?_
  intro ctx n hlen
  rcases ctx with _ | ⟨⟨pd, pc, pk, po⟩, rest⟩
  · exact inorder_setBlack n
  · cases pc with
    | black =>
      have e : _rbtree_insert_fixup (⟨pd, .black, pk, po⟩ :: rest) n
          = (plug (⟨pd, .black, pk, po⟩ :: rest) n).setBlack := by
        simp [_rbtree_insert_fixup]
      rw [e, inorder_setBlack]
    | red =>
      rcases rest with _ | ⟨⟨gd, gc, gk, go⟩, rest'⟩
      · have e : _rbtree_insert_fixup [⟨pd, .red, pk, po⟩] n
            = (plug [⟨pd, .red, pk, po⟩] n).setBlack := by
          simp [_rbtree_insert_fixup]
        rw [e, inorder_setBlack]
      · have hrest : rest'.length ≤ L := by
          simp only [List.length_cons] at hlen
          omega
        cases gd with
        | left =>
          by_cases hgo : go.isRed = true
          · have e : _rbtree_insert_fixup
                (⟨pd, .red, pk, po⟩ :: ⟨.left, gc, gk, go⟩ :: rest') n
                = _rbtree_insert_fixup rest'
                    (.node .red (plugOne ⟨pd, .black, pk, po⟩ n) gk go.setBlack) := by
              simp [_rbtree_insert_fixup, hgo]
            rw [e, IH _ _ hrest, plug_cons, plug_cons]
            refine plug_inorder_congr rest' ?_
            cases pd <;>
              simp [plugOne, RBT.inorder, inorder_setBlack, List.append_assoc]
          · cases pd with
            | left =>
              have e : _rbtree_insert_fixup
                  (⟨.left, .red, pk, po⟩ :: ⟨.left, gc, gk, go⟩ :: rest') n
                  = (plug rest'
                      (.node .black n pk (.node .red po gk go))).setBlack := by
                simp [_rbtree_insert_fixup, hgo]
              rw [e, inorder_setBlack, plug_cons, plug_cons]
              refine plug_inorder_congr rest' ?_
              simp [plugOne, RBT.inorder, List.append_assoc]
            | right =>
              cases n with
              | node nc nl nk nr =>
                have e : _rbtree_insert_fixup
                    (⟨.right, .red, pk, po⟩ :: ⟨.left, gc, gk, go⟩ :: rest')
                    (.node nc nl nk nr)
                    = (plug rest'
                        (.node .black (.node .red po pk nl) nk
                          (.node .red nr gk go))).setBlack := by
                  simp [_rbtree_insert_fixup, hgo]
                rw [e, inorder_setBlack, plug_cons, plug_cons]
                refine plug_inorder_congr rest' ?_
                simp [plugOne, RBT.inorder, List.append_assoc]
              | nil =>
                have e : _rbtree_insert_fixup
                    (⟨.right, .red, pk, po⟩ :: ⟨.left, gc, gk, go⟩ :: rest')
                    (.nil : RBT α)
                    = (plug rest'
                        (plugOne ⟨.left, gc, gk, go⟩
                          (plugOne ⟨.right, .red, pk, po⟩ .nil))).setBlack := by
                  simp [_rbtree_insert_fixup, hgo]
                rw [e, inorder_setBlack, plug_cons, plug_cons]
              | dummy =>
                have e : _rbtree_insert_fixup
                    (⟨.right, .red, pk, po⟩ :: ⟨.left, gc, gk, go⟩ :: rest')
                    (.dummy : RBT α)
                    = (plug rest'
                        (plugOne ⟨.left, gc, gk, go⟩
                          (plugOne ⟨.right, .red, pk, po⟩ .dummy))).setBlack := by
                  simp [_rbtree_insert_fixup, hgo]
                rw [e, inorder_setBlack, plug_cons, plug_cons]
        | right =>
          by_cases hgo : go.isRed = true
          · have e : _rbtree_insert_fixup
                (⟨pd, .red, pk, po⟩ :: ⟨.right, gc, gk, go⟩ :: rest') n
                = _rbtree_insert_fixup rest'
                    (.node .red go.setBlack gk (plugOne ⟨pd, .black, pk, po⟩ n)) := by
              simp [_rbtree_insert_fixup, hgo]
            rw [e, IH _ _ hrest, plug_cons, plug_cons]
            refine plug_inorder_congr rest' ?_
            cases pd <;>
              simp [plugOne, RBT.inorder, inorder_setBlack, List.append_assoc]
          · cases pd with
            | right =>
              have e : _rbtree_insert_fixup
                  (⟨.right, .red, pk, po⟩ :: ⟨.right, gc, gk, go⟩ :: rest') n
                  = (plug rest'
                      (.node .black (.node .red go gk po) pk n)).setBlack := by
                simp [_rbtree_insert_fixup, hgo]
              rw [e, inorder_setBlack, plug_cons, plug_cons]
              refine plug_inorder_congr rest' ?_
              simp [plugOne, RBT.inorder, List.append_assoc]
            | left =>
              cases n with
              | node nc nl nk nr =>
                have e : _rbtree_insert_fixup
                    (⟨.left, .red, pk, po⟩ :: ⟨.right, gc, gk, go⟩ :: rest')
                    (.node nc nl nk nr)
                    = (plug rest'
                        (.node .black (.node .red go gk nl) nk
                          (.node .red nr pk po))).setBlack := by
                  simp [_rbtree_insert_fixup, hgo]
                rw [e, inorder_setBlack, plug_cons, plug_cons]
                refine plug_inorder_congr rest' ?_
                simp [plugOne, RBT.inorder, List.append_assoc]
              | nil =>
                have e : _rbtree_insert_fixup
                    (⟨.left, .red, pk, po⟩ :: ⟨.right, gc, gk, go⟩ :: rest')
                    (.nil : RBT α)
                    = (plug rest'
                        (plugOne ⟨.right, gc, gk, go⟩
                          (plugOne ⟨.left, .red, pk, po⟩ .nil))).setBlack := by
                  simp [_rbtree_insert_fixup, hgo]
                rw [e, inorder_setBlack, plug_cons, plug_cons]
              | dummy =>
                have e : _rbtree_insert_fixup
                    (⟨.left, .red, pk, po⟩ :: ⟨.right, gc, gk, go⟩ :: rest')
                    (.dummy : RBT α)
                    = (plug rest'
                        (plugOne ⟨.right, gc, gk, go⟩
                          (plugOne ⟨.left, .red, pk, po⟩ .dummy))).setBlack := by
                  simp [_rbtree_insert_fixup, hgo]
                rw [e, inorder_setBlack, plug_cons, plug_cons]

theorem insert_fixup_inorder (ctx : List (Frame α)) (n : RBT α) :
    (_rbtree_insert_fixup ctx n).inorder = (plug ctx n).inorder :=
  insert_fixup_inorder_aux ctx.length ctx n (Nat.le_refl _)

theorem descend_plug (cmp : α → α → Int) (q : α) :
    ∀ (t : RBT α) (acc : List (Frame α)) (s : RBT α),
      plug (descendIns cmp t q acc) s = plug acc (insNF cmp t q s) := by
  intro t
  induction t with
  | nil => intro acc s; rfl
  | dummy => intro acc s; rfl
  | node c l k r ihl ihr =>
    intro acc s
    by_cases hcmp : cmp q k > 0
    · have e1 : descendIns cmp (.node c l k r) q acc
          = descendIns cmp r q (⟨.right, c, k, l⟩ :: acc) := by
        simp [descendIns, hcmp]
      have e2 : insNF cmp (.node c l k r) q s = .node c l k (insNF cmp r q s) := by
        simp [insNF, hcmp]
      rw [e1, e2, ihr]
      rfl
    · have e1 : descendIns cmp (.node c l k r) q acc
          = descendIns cmp l q (⟨.left, c, k, r⟩ :: acc) := by
        simp [descendIns, hcmp]
      have e2 : insNF cmp (.node c l k r) q s = .node c (insNF cmp l q s) k r := by
        simp [insNF, hcmp]
      rw [e1, e2, ihl]
      rfl

theorem rbtree_insert_inorder (cmp : α → α → Int) (t : RBT α) (q : α) :
    ∃ c, (rbtree_insert cmp t q).inorder
      = (insNF cmp t q (.node c .nil q .nil)).inorder := by
  refine ⟨if (descendIns cmp t q []).isEmpty then .black else .red, ?_⟩
  have e : rbtree_insert cmp t q
      = _rbtree_insert_fixup (descendIns cmp t q [])
          (.node (if (descendIns cmp t q []).isEmpty then .black else .red) .nil q .nil) := by
    simp [rbtree_insert]
  rw [e, insert_fixup_inorder, descend_plug]
  rfl

theorem insNF_inorder_split (cmp : α → α → Int) (hc : LawfulCmp cmp) (q : α) :
    ∀ (t : RBT α) (s : RBT α),
      List.Pairwise (fun a b => cmp a b ≤ 0) t.inorder →
      ∃ l1 l2, t.inorder = l1 ++ l2 ∧
        (insNF cmp t q s).inorder = l1 ++ s.inorder ++ l2 ∧
        (∀ x ∈ l1, cmp x q ≤ 0) ∧ (∀ y ∈ l2, cmp q y ≤ 0) := by
  intro t
  induction t with
  | nil =>
    intro s _
    exact ⟨[], [], by simp [RBT.inorder], by simp [insNF, RBT.inorder], by simp, by simp⟩
  | dummy =>
    intro s _
    exact ⟨[], [], by simp [RBT.inorder], by simp [insNF, RBT.inorder], by simp, by simp⟩
  | node c l k r ihl ihr =>
    intro s hp
    have hp2 := hp
    rw [show (RBT.node c l k r).inorder = l.inorder ++ k :: r.inorder from rfl,
      List.pairwise_append] at hp2
    obtain ⟨hPl, hPkr, hcross⟩ := hp2
    rw [List.pairwise_cons] at hPkr
    obtain ⟨hk, hPr⟩ := hPkr
    by_cases hcmp : cmp q k > 0
    · obtain ⟨l1r, l2r, hsplit, hins, hb1, hb2⟩ := ihr s hPr
      have hkq : cmp k q ≤ 0 := (hc.flip k q).mpr (by omega)
      refine ⟨l.inorder ++ k :: l1r, l2r, ?_, ?_, ?_, hb2⟩
      · rw [show (RBT.node c l k r).inorder = l.inorder ++ k :: r.inorder from rfl,
          hsplit]
        simp
      · have e : insNF cmp (.node c l k r) q s = .node c l k (insNF cmp r q s) := by
          simp [insNF, hcmp]
        rw [e, show (RBT.node c l k (insNF cmp r q s)).inorder
            = l.inorder ++ k :: (insNF cmp r q s).inorder from rfl, hins]
        simp
      · intro x hx
        rcases List.mem_append.mp hx with hx | hx
        · exact hc.le_trans x k q (hcross x hx k (by simp)) hkq
        · rcases List.mem_cons.mp hx with rfl | hx
          · exact hkq
          · exact hb1 x hx
    · obtain ⟨l1l, l2l, hsplit, hins, hb1, hb2⟩ := ihl s hPl
      have hqk : cmp q k ≤ 0 := by omega
      refine ⟨l1l, l2l ++ k :: r.inorder, ?_, ?_, hb1, ?_⟩
      · rw [show (RBT.node c l k r).inorder = l.inorder ++ k :: r.inorder from rfl,
          hsplit]
        simp
      · have e : insNF cmp (.node c l k r) q s = .node c (insNF cmp l q s) k r := by
          simp [insNF, hcmp]
        rw [e, show (RBT.node c (insNF cmp l q s) k r).inorder
            = (insNF cmp l q s).inorder ++ k :: r.inorder from rfl, hins]
        simp
      · intro y hy
        rcases List.mem_append.mp hy with hy | hy
        · exact hb2 y hy
        · rcases List.mem_cons.mp hy with rfl | hy
          · exact hqk
          · exact hc.le_trans q k y hqk (hk y hy)

theorem rbtree_insert_sorted (cmp : α → α → Int) (hc : LawfulCmp cmp)
    {t : RBT α} (q : α)
    (hp : List.Pairwise (fun a b => cmp a b ≤ 0) t.inorder) :
    List.Pairwise (fun a b => cmp a b ≤ 0) (rbtree_insert cmp t q).inorder := by
  obtain ⟨c, e⟩ := rbtree_insert_inorder cmp t q
  rw [e]
  obtain ⟨l1, l2, hsplit, hins, hb1, hb2⟩ :=
    insNF_inorder_split cmp hc q t (.node c .nil q .nil) hp
  rw [hins]
  rw [hsplit, List.pairwise_append] at hp
  obtain ⟨hP1, hP2, hcross⟩ := hp
  rw [show (RBT.node c .nil q .nil).inorder = [q] from rfl]
  have e2 : l1 ++ [q] ++ l2 = l1 ++ q :: l2 := by simp
  rw [e2, List.pairwise_append, List.pairwise_cons]
  refine ⟨hP1, ⟨hb2, hP2⟩, ?_⟩
  intro a ha b hb
  rcases List.mem_cons.mp hb with rfl | hb
  · exact hb1 a ha
  · exact hcross a ha b hb

theorem insNF_inorder_perm (cmp : α → α → Int) (q : α) :
    ∀ (t s : RBT α), List.Perm ((insNF cmp t q s).inorder) (s.inorder ++ t.inorder) := by
  intro t
  induction t with
  | nil => intro s; simp [insNF, RBT.inorder]
  | dummy => intro s; simp [insNF, RBT.inorder]
  | node c l k r ihl ihr =>
    intro s
    by_cases hcmp : cmp q k > 0
    · have e : insNF cmp (.node c l k r) q s = .node c l k (insNF cmp r q s) := by
        simp [insNF, hcmp]
      rw [e]
      have hA : List.Perm (l.inorder ++ k :: (insNF cmp r q s).inorder)
          (l.inorder ++ k :: (s.inorder ++ r.inorder)) :=
        ((ihr s).cons k).append_left l.inorder
      have hB1 : List.Perm (l.inorder ++ (k :: (s.inorder ++ r.inorder)))
          (l.inorder ++ (s.inorder ++ (k :: r.inorder))) :=
        (List.perm_middle.symm).append_left l.inorder
      have hB2 : List.Perm (l.inorder ++ (s.inorder ++ (k :: r.inorder)))
          (s.inorder ++ (l.inorder ++ (k :: r.inorder))) := by
        rw [← List.append_assoc, ← List.append_assoc]
        exact List.perm_append_comm.append_right _
      exact (hA.trans hB1).trans hB2
    · have e : insNF cmp (.node c l k r) q s = .node c (insNF cmp l q s) k r := by
        simp [insNF, hcmp]
      rw [e]
      have hA : List.Perm ((insNF cmp l q s).inorder ++ (k :: r.inorder))
          ((s.inorder ++ l.inorder) ++ (k :: r.inorder)) :=
        (ihl s).append_right _
      rw [List.append_assoc] at hA
      exact hA

theorem rbtree_insert_inorder_perm (cmp : α → α → Int) (t : RBT α) (q : α) :
    List.Perm ((rbtree_insert cmp t q).inorder) (q :: t.inorder) := by
  obtain ⟨c, e⟩ := rbtree_insert_inorder cmp t q
  rw [e]
  have h := insNF_inorder_perm cmp q t (.node c .nil q .nil)
  rw [show (RBT.node c .nil q .nil).inorder = [q] from rfl] at h
  exact h

theorem rbtree_search_some (cmp : α → α → Int) :
    ∀ (t : RBT α) (q : α) (sub : RBT α), rbtree_search cmp t q = some sub →
      ∃ k, sub.rootKey = some k ∧ cmp q k = 0 ∧ k ∈ t.inorder := by
  intro t
  induction t with
  | nil => intro q sub h; simp [rbtree_search] at h
  | dummy => intro q sub h; simp [rbtree_search] at h
  | node c l k r ihl ihr =>
    intro q sub h
    by_cases h1 : cmp q k < 0
    · rw [show rbtree_search cmp (.node c l k r) q = rbtree_search cmp l q from by
        simp [rbtree_search, h1]] at h
      obtain ⟨k2, hk2, hc2, hm⟩ := ihl q sub h
      exact ⟨k2, hk2, hc2, by simp [RBT.inorder]; tauto⟩
    · by_cases h2 : cmp q k > 0
      · rw [show rbtree_search cmp (.node c l k r) q = rbtree_search cmp r q from by
          simp [rbtree_search, h1, h2]] at h
        obtain ⟨k2, hk2, hc2, hm⟩ := ihr q sub h
        exact ⟨k2, hk2, hc2, by simp [RBT.inorder]; tauto⟩
      · rw [show rbtree_search cmp (.node c l k r) q = some (.node c l k r) from by
          simp [rbtree_search, h1, h2]] at h
        cases h
        exact ⟨k, rfl, by omega, by simp [RBT.inorder]⟩

theorem rbtree_search_complete (cmp : α → α → Int) (hc : LawfulCmp cmp) :
    ∀ (t : RBT α), List.Pairwise (fun a b => cmp a b ≤ 0) t.inorder →
      ∀ (q x : α), x ∈ t.inorder → cmp q x = 0 →
        ∃ sub, rbtree_search cmp t q = some sub := by
  intro t
  induction t with
  | nil => intro _ q x hx _; simp [RBT.inorder] at hx
  | dummy => intro _ q x hx _; simp [RBT.inorder] at hx
  | node c l k r ihl ihr =>
    intro hp q x hx hqx
    have hp2 := hp
    rw [show (RBT.node c l k r).inorder = l.inorder ++ k :: r.inorder from rfl,
      List.pairwise_append] at hp2
    obtain ⟨hPl, hPkr, hcross⟩ := hp2
    rw [List.pairwise_cons] at hPkr
    obtain ⟨hk, hPr⟩ := hPkr
    by_cases h1 : cmp q k < 0
    · rw [show rbtree_search cmp (.node c l k r) q = rbtree_search cmp l q from by
        simp [rbtree_search, h1]]
      have hxl : x ∈ l.inorder := by
        rw [show (RBT.node c l k r).inorder = l.inorder ++ k :: r.inorder from rfl] at hx
        rcases List.mem_append.mp hx with hx | hx
        · exact hx
        · exfalso
          rcases List.mem_cons.mp hx with rfl | hx
          · omega
          · have hkx : cmp k x ≤ 0 := hk x hx
            have hxq : cmp x q ≤ 0 := (hc.flip x q).mpr (by omega)
            have : cmp k q ≤ 0 := hc.le_trans k x q hkx hxq
            have : 0 ≤ cmp q k := (hc.flip k q).mp this
            omega
      exact ihl hPl q x hxl hqx
    · by_cases h2 : cmp q k > 0
      · rw [show rbtree_search cmp (.node c l k r) q = rbtree_search cmp r q from by
          simp [rbtree_search, h1, h2]]
        have hxr : x ∈ r.inorder := by
          rw [show (RBT.node c l k r).inorder = l.inorder ++ k :: r.inorder from rfl] at hx
          rcases List.mem_append.mp hx with hx | hx
          · exfalso
            have hxk : cmp x k ≤ 0 := hcross x hx k (by simp)
            have hqk : cmp q k ≤ 0 := hc.le_trans q x k (by omega) hxk
            omega
          · rcases List.mem_cons.mp hx with rfl | hx
            · omega
            · exact hx
        exact ihr hPr q x hxr hqx
      · exact ⟨.node c l k r, by simp [rbtree_search, h1, h2]⟩

/-- The invariant bundle maintained across a sequence of inserts. -/
def TreeOk (cmp : α → α → Int) (t : RBT α) : Prop :=
  t.rootCol = .black ∧ RedInv t ∧ (∃ h, Bal t h) ∧
    List.Pairwise (fun a b => cmp a b ≤ 0) t.inorder

theorem treeOk_nil (cmp : α → α → Int) : TreeOk cmp (.nil : RBT α) :=
  ⟨rfl, .nil, ⟨0, .nil⟩, by simp [RBT.inorder]⟩

theorem treeOk_insert (cmp : α → α → Int) (hc : LawfulCmp cmp) {t : RBT α}
    (h : TreeOk cmp t) (q : α) : TreeOk cmp (rbtree_insert cmp t q) := by
  obtain ⟨hcol, hr, ⟨H, hb⟩, hp⟩ := h
  obtain ⟨H2, hb2, hr2, hcol2⟩ := rbtree_insert_ok cmp hb hr hcol q
  exact ⟨hcol2, hr2, ⟨H2, hb2⟩, rbtree_insert_sorted cmp hc q hp⟩

theorem treeOk_foldl (cmp : α → α → Int) (hc : LawfulCmp cmp) (ks : List α) :
    ∀ (t : RBT α), TreeOk cmp t → TreeOk cmp (ks.foldl (rbtree_insert cmp) t) := by
  induction ks with
  | nil => intro t h; exact h
  | cons k ks ih =>
    intro t h
    exact ih _ (treeOk_insert cmp hc h k)

theorem blackHeights_bal : ∀ {t : RBT α} {h : Nat}, Bal t h →
    ∀ b ∈ blackHeights t, b = h := by
  intro t
  induction t with
  | nil =>
    intro h hb b hmem
    cases hb
    simpa [blackHeights] using hmem
  | dummy => intro h hb _ _; cases hb
  | node c l k r ihl ihr =>
    intro h hb b hmem
    cases hb with
    | red hl hr =>
      have hmem2 : b ∈ blackHeights l ∨ b ∈ blackHeights r := by
        simpa [blackHeights] using hmem
      rcases hmem2 with hm | hm
      · exact ihl hl b hm
      · exact ihr hr b hm
    | black hl hr =>
      have hmem2 : (∃ a ∈ blackHeights l, a + 1 = b) ∨ ∃ a ∈ blackHeights r, a + 1 = b := by
        simpa [blackHeights] using hmem
      rcases hmem2 with ⟨b2, hm, he⟩ | ⟨b2, hm, he⟩
      · have := ihl hl b2 hm
        omega
      · have := ihr hr b2 hm
        omega

theorem foldl_inorder_perm (cmp : α → α → Int) (ks : List α) :
    ∀ (t : RBT α),
      List.Perm ((ks.foldl (rbtree_insert cmp) t).inorder) (ks ++ t.inorder) := by
  induction ks with
  | nil => intro t; simp
  | cons k ks ih =>
    intro t
    have h1 := ih (rbtree_insert cmp t k)
    have h2 : List.Perm (ks ++ (rbtree_insert cmp t k).inorder) (ks ++ k :: t.inorder) :=
      (rbtree_insert_inorder_perm cmp t k).append_left ks
    have h3 : List.Perm (ks ++ k :: t.inorder) (k :: (ks ++ t.inorder)) :=
      List.perm_middle
    exact (h1.trans h2).trans h3

/-- C1: for every sequence of inserts into an initially empty tree, after
each `rbtree_insert` the tree satisfies the red-black invariants: the
root is black, no red node has a red child (`RedInv`), every
root-to-leaf path contains the same number of black nodes
(`blackHeights` is constant), and the in-order key sequence is sorted
non-decreasingly per the configured comparator. Quantifying over all key
sequences covers the state after each insert, since every intermediate
tree is the fold of a prefix. -/
theorem C1_insert_invariants (cmp : α → α → Int) (hc : LawfulCmp cmp) (ks : List α) :
    (ks.foldl (rbtree_insert cmp) .nil).rootCol = .black ∧
    RedInv (ks.foldl (rbtree_insert cmp) .nil) ∧
    (∀ b1 ∈ blackHeights (ks.foldl (rbtree_insert cmp) .nil),
      ∀ b2 ∈ blackHeights (ks.foldl (rbtree_insert cmp) .nil), b1 = b2) ∧
    List.Pairwise (fun a b => cmp a b ≤ 0)
      (ks.foldl (rbtree_insert cmp) .nil).inorder := by
  obtain ⟨hcol, hr, ⟨h, hb⟩, hp⟩ := treeOk_foldl cmp hc ks .nil (treeOk_nil cmp)
  refine ⟨hcol, hr, ?_, hp⟩
  intro b1 h1 b2 h2
  rw [blackHeights_bal hb b1 h1, blackHeights_bal hb b2 h2]

theorem lawful_intCmp : LawfulCmp intCmp := by
  constructor
  · intro a
    simp [intCmp]
  · intro a b
    simp only [intCmp]
    omega
  · intro a b c
    simp only [intCmp]
    omega

/-- Witness for C1: the integer comparator on the insert sequence
10, 20, 30. -/
theorem C1_insert_invariants_witness :
    LawfulCmp intCmp ∧
    ((([10, 20, 30] : List Int).foldl (rbtree_insert intCmp) .nil).rootCol = .black ∧
    RedInv (([10, 20, 30] : List Int).foldl (rbtree_insert intCmp) .nil) ∧
    (∀ b1 ∈ blackHeights (([10, 20, 30] : List Int).foldl (rbtree_insert intCmp) .nil),
      ∀ b2 ∈ blackHeights (([10, 20, 30] : List Int).foldl (rbtree_insert intCmp) .nil),
      b1 = b2) ∧
    List.Pairwise (fun a b => intCmp a b ≤ 0)
      (([10, 20, 30] : List Int).foldl (rbtree_insert intCmp) .nil).inorder) :=
  ⟨lawful_intCmp, C1_insert_invariants intCmp lawful_intCmp [10, 20, 30]⟩

/-- C4: round trip through `rbtree_insert` and `rbtree_search`. After
inserting the keys `ks` into an initially empty tree, searching any
`q ∈ ks` returns a node whose stored key compares equal to `q` under the
configured comparator, and searching a key that compares unequal to
every inserted key returns the null pointer. The embedding of
`rbtree_search` is a pure function of the tree (the C code performs no
store), so the tree is unchanged by construction. -/
theorem C4_search_roundtrip (cmp : α → α → Int) (hc : LawfulCmp cmp)
    (ks : List α) (q : α) :
    (q ∈ ks →
      ∃ sub k, rbtree_search cmp (ks.foldl (rbtree_insert cmp) .nil) q = some sub ∧
        sub.rootKey = some k ∧ cmp q k = 0) ∧
    ((∀ x ∈ ks, cmp q x ≠ 0) →
      rbtree_search cmp (ks.foldl (rbtree_insert cmp) .nil) q = none) := by
  obtain ⟨hcol, hr, hbal, hp⟩ := treeOk_foldl cmp hc ks .nil (treeOk_nil cmp)
  have hperm := foldl_inorder_perm cmp ks (.nil : RBT α)
  constructor
  · intro hmem
    have hq : q ∈ (ks.foldl (rbtree_insert cmp) .nil).inorder := by
      refine hperm.mem_iff.mpr ?_
      simpa [RBT.inorder] using hmem
    obtain ⟨sub, hsub⟩ := rbtree_search_complete cmp hc _ hp q q hq (hc.refl q)
    obtain ⟨k, hk, hqk, _⟩ := rbtree_search_some cmp _ q sub hsub
    exact ⟨sub, k, hsub, hk, hqk⟩
  · intro hall
    by_contra hne
    obtain ⟨sub, hsub⟩ : ∃ sub,
        rbtree_search cmp (ks.foldl (rbtree_insert cmp) .nil) q = some sub := by
      cases hres : rbtree_search cmp (ks.foldl (rbtree_insert cmp) .nil) q with
      | none => exact absurd hres hne
      | some sub => exact ⟨sub, rfl⟩
    obtain ⟨k, hk, hqk, hmem⟩ := rbtree_search_some cmp _ q sub hsub
    have hkks : k ∈ ks := by
      have := hperm.mem_iff.mp hmem
      simpa [RBT.inorder] using this
    exact hall k hkks hqk

/-- Witness for C4: the integer comparator, keys 10, 20, 30, query 20. -/
theorem C4_search_roundtrip_witness :
    LawfulCmp intCmp ∧
    ((20 ∈ ([10, 20, 30] : List Int) →
      ∃ sub k,
        rbtree_search intCmp (([10, 20, 30] : List Int).foldl (rbtree_insert intCmp) .nil)
          20 = some sub ∧ sub.rootKey = some k ∧ intCmp 20 k = 0) ∧
    ((∀ x ∈ ([10, 20, 30] : List Int), intCmp 20 x ≠ 0) →
      rbtree_search intCmp (([10, 20, 30] : List Int).foldl (rbtree_insert intCmp) .nil)
        20 = none)) :=
  ⟨lawful_intCmp, C4_search_roundtrip intCmp lawful_intCmp [10, 20, 30] 20⟩

/-- C2 evaluation: inserting key 1 into an empty tree and then deleting
that node through `rbtree_delete` leaves a null root, but the `cnt`
field is still 1: the body of `rbtree_delete` contains no decrement of
`t->cnt`, so the count does not equal the number of live nodes and never
reaches zero. -/
theorem C2_count_not_decremented :
    (rbtree_delete_st (rbtree_insert_st intCmp (rbtree_init : RBTreeSt Int) 1) []).root
        = .nil ∧
    (rbtree_delete_st (rbtree_insert_st intCmp (rbtree_init : RBTreeSt Int) 1) []).cnt
        = 1 := by
  decide

/-- C3 evaluation: when the allocator hook fails, `rbtree_insert` does
not detect the null result of `rbnode_new` and reaches undefined
behaviour (a `memcpy` through a null-based pointer) instead of returning
an allocation error with the tree unchanged — for every tree and key. -/
theorem C3_alloc_failure_reaches_ub (cmp : α → α → Int) (t : RBT α) (q : α) :
    rbtree_insert_alloc cmp false t q = .error .nullDeref := rfl

/-- C5 evaluation: inserting 15 into the tree built from 10, 20 places
the node (the final tree holds 10, 15, 20 and is balanced), but the
value `rbtree_insert` returns — the post-fixup contents of the
pre-fixup child slot `&(node 20)->l` — is the null pointer, not the new
node. -/
theorem C5_stale_return_slot :
    (rbtree_insert_ret intCmp (([10, 20] : List Int).foldl (rbtree_insert intCmp) .nil)
        15).2 = some .nil ∧
    (rbtree_insert_ret intCmp (([10, 20] : List Int).foldl (rbtree_insert intCmp) .nil)
        15).1
      = .node .black (.node .red .nil 10 .nil) 15 (.node .red .nil 20 .nil) := by
  decide

/-- C6 evaluation: on the three-node tree built from 10, 20, 30,
`rbtree_levelorder` dequeues all three nodes, shallower first, but
performs zero callback invocations: the callback call in its loop is
commented out (`//cb(n->data, user);`). -/
theorem C6_levelorder_no_callback :
    (rbtree_levelorder (([10, 20, 30] : List Int).foldl (rbtree_insert intCmp) .nil)
        3).1 = [20, 10, 30] ∧
    (rbtree_levelorder (([10, 20, 30] : List Int).foldl (rbtree_insert intCmp) .nil)
        3).2 = [] ∧
    (([10, 20, 30] : List Int).foldl (rbtree_insert intCmp) .nil).sizeT = 3 := by
  decide

/-- C7 evaluation: the stack capacity of `rbtree_preorder` is the fixed
constant 4048 whatever the tree's count is — the count-derived bound on
its source line is commented out — while `rbtree_postorder` and
`rbtree_levelorder` recompute `1 << (2 * ullog2_ceil(cnt))` per call. -/
theorem C7_preorder_cap_is_constant :
    rbtree_preorder_stack_cap 3 = 4048 ∧
    rbtree_preorder_stack_cap 1000000 = 4048 ∧
    rbtree_postorder_stack_cap 3 = 16 ∧
    rbtree_levelorder_queue_cap 3 = 16 ∧
    rbtree_preorder_stack_cap 3 ≠ rbtree_postorder_stack_cap 3 := by
  decide

/-- C8 counterexample: after inserting integer keys 10, 20, 30 into an
empty tree, the root is 20 and black, but its children 10 and 30 are
red, not black as the claim states. -/
theorem C8_counterexample :
    ¬ ((([10, 20, 30] : List Int).foldl (rbtree_insert intCmp) .nil).rootKey = some 20 ∧
       (([10, 20, 30] : List Int).foldl (rbtree_insert intCmp) .nil).rootCol = .black ∧
       ((([10, 20, 30] : List Int).foldl (rbtree_insert intCmp) .nil).child .left).rootKey
          = some 10 ∧
       ((([10, 20, 30] : List Int).foldl (rbtree_insert intCmp) .nil).child .left).rootCol
          = .black ∧
       ((([10, 20, 30] : List Int).foldl (rbtree_insert intCmp) .nil).child .right).rootKey
          = some 30 ∧
       ((([10, 20, 30] : List Int).foldl (rbtree_insert intCmp) .nil).child .right).rootCol
          = .black) := by
  decide

/-- C8 amended: after inserting 10, 20, 30 in that order the tree is the
node 20, black, with left child 10 and right child 30 both red — the
case-4 rotation has rebalanced the right-leaning chain, and the two
children keep the red colour given to freshly inserted non-root nodes. -/
theorem C8_amended :
    ([10, 20, 30] : List Int).foldl (rbtree_insert intCmp) .nil
      = .node .black (.node .red .nil 10 .nil) 20 (.node .red .nil 30 .nil) := by
  decide

theorem memcmpM_eq_zero : ∀ {a b : List Nat}, a.length = b.length →
    memcmpM a b = 0 → a = b := by
  intro a
  induction a with
  | nil =>
    intro b hl _
    cases b with
    | nil => rfl
    | cons y ys => simp at hl
  | cons x xs ih =>
    intro b hl hm
    cases b with
    | nil => simp at hl
    | cons y ys =>
      by_cases hxy : x = y
      · subst hxy
        rw [show memcmpM (x :: xs) (x :: ys) = memcmpM xs ys from by
          simp [memcmpM]] at hm
        rw [ih (by simpa using hl) hm]
      · rw [show memcmpM (x :: xs) (y :: ys) = (x : Int) - (y : Int) from by
          simp [memcmpM, hxy]] at hm
        exact absurd (by omega : x = y) hxy

theorem strcmpM_eq_zero : ∀ {a b : List Nat}, 0 ∉ a → 0 ∉ b →
    strcmpM a b = 0 → a = b := by
  intro a
  induction a with
  | nil =>
    intro b _ hb hm
    cases b with
    | nil => rfl
    | cons y ys =>
      rw [show strcmpM [] (y :: ys) = 0 - (y : Int) from rfl] at hm
      have : y = 0 := by omega
      exact absurd (this ▸ List.mem_cons_self y ys) hb
  | cons x xs ih =>
    intro b ha hb hm
    cases b with
    | nil =>
      rw [show strcmpM (x :: xs) [] = (x : Int) from rfl] at hm
      have : x = 0 := by omega
      exact absurd (this ▸ List.mem_cons_self x xs) ha
    | cons y ys =>
      by_cases hxy : x = y
      · subst hxy
        rw [show strcmpM (x :: xs) (x :: ys) = strcmpM xs ys from by
          simp [strcmpM]] at hm
        rw [ih (fun hmm => ha (List.mem_cons_of_mem x hmm))
          (fun hmm => hb (List.mem_cons_of_mem x hmm)) hm]
      · rw [show strcmpM (x :: xs) (y :: ys) = (x : Int) - (y : Int) from by
          simp [strcmpM, hxy]] at hm
        exact absurd (by omega : x = y) hxy

theorem map_key_hash_length (s : List Nat) : (_map_key_init s).hash.length = 8 := by
  by_cases hl : s.length > 8
  · rw [show _map_key_init s = { hash := s.take 8, key := some s } from by
      simp [_map_key_init, hl]]
    simp
    omega
  · rw [show _map_key_init s
        = { hash := s ++ List.replicate (8 - s.length) 0, key := none } from by
      simp [_map_key_init, hl]]
    simp
    omega

/-- C9 counterexample: the composite keys built by `_map_key_init` from
the 9-byte string "ABCDEFGHI" and the 8-byte string "ABCDEFGH" compare
equal under `_map_key_cmp`, although the first carries an overflow
full-string pointer and the two full strings differ: with one-sided
overflow the comparator never consults the full string. -/
theorem C9_counterexample :
    _map_key_cmp (_map_key_init [65, 66, 67, 68, 69, 70, 71, 72, 73])
        (_map_key_init [65, 66, 67, 68, 69, 70, 71, 72]) = 0 ∧
    (_map_key_init [65, 66, 67, 68, 69, 70, 71, 72, 73]).key ≠ none ∧
    ([65, 66, 67, 68, 69, 70, 71, 72, 73] : List Nat)
      ≠ [65, 66, 67, 68, 69, 70, 71, 72] := by
  refine ⟨by decide, by decide, by decide⟩

/-- C9 amended: `_map_key_cmp` on keys built by `_map_key_init` returns
equal only if the 8-byte prefixes are byte-equal and, when BOTH keys
carry overflow full-string pointers, the full strings are equal; the
full-string fallback runs only when both sides carry a pointer — equal
prefixes with at most one side carrying a full string compare by the
prefix `memcmp` alone. (Strings are byte lists without the null
terminator, so they contain no 0 byte.) -/
theorem C9_cmp_equal_conditions (sa sb : List Nat) (ha : 0 ∉ sa) (hb : 0 ∉ sb) :
    (_map_key_cmp (_map_key_init sa) (_map_key_init sb) = 0 →
      (_map_key_init sa).hash = (_map_key_init sb).hash ∧
      (∀ wa wb, (_map_key_init sa).key = some wa → (_map_key_init sb).key = some wb →
        wa = wb)) ∧
    (((_map_key_init sa).key = none ∨ (_map_key_init sb).key = none) →
      _map_key_cmp (_map_key_init sa) (_map_key_init sb)
        = memcmpM (_map_key_init sa).hash (_map_key_init sb).hash) := by
  have hlen : (_map_key_init sa).hash.length = (_map_key_init sb).hash.length := by
    rw [map_key_hash_length, map_key_hash_length]
  constructor
  · intro hz
    by_cases hm : memcmpM (_map_key_init sa).hash (_map_key_init sb).hash = 0
    · refine ⟨memcmpM_eq_zero hlen hm, ?_⟩
      intro wa wb hwa hwb
      have hwain : wa = sa := by
        by_cases hla : sa.length > 8
        · rw [show _map_key_init sa = { hash := sa.take 8, key := some sa } from by
            simp [_map_key_init, hla]] at hwa
          simpa using hwa.symm
        · rw [show _map_key_init sa
              = { hash := sa ++ List.replicate (8 - sa.length) 0, key := none } from by
            simp [_map_key_init, hla]] at hwa
          simp at hwa
      have hwbin : wb = sb := by
        by_cases hlb : sb.length > 8
        · rw [show _map_key_init sb = { hash := sb.take 8, key := some sb } from by
            simp [_map_key_init, hlb]] at hwb
          simpa using hwb.symm
        · rw [show _map_key_init sb
              = { hash := sb ++ List.replicate (8 - sb.length) 0, key := none } from by
            simp [_map_key_init, hlb]] at hwb
          simp at hwb
      have hs : strcmpM wa wb = 0 := by
        rw [show _map_key_cmp (_map_key_init sa) (_map_key_init sb)
            = strcmpM wa wb from by
          simp [_map_key_cmp, hm, hwa, hwb]] at hz
        exact hz
      exact strcmpM_eq_zero (hwain.symm ▸ ha) (hwbin.symm ▸ hb) hs
    · exfalso
      apply hm
      rw [show _map_key_cmp (_map_key_init sa) (_map_key_init sb)
          = memcmpM (_map_key_init sa).hash (_map_key_init sb).hash from by
        simp [_map_key_cmp, hm]] at hz
      exact hz
  · intro hone
    by_cases hm : memcmpM (_map_key_init sa).hash (_map_key_init sb).hash = 0
    · rcases hone with hone | hone <;>
        simp [_map_key_cmp, hm, hone]
    · simp [_map_key_cmp, hm]

/-- Witness for C9's amended statement at the strings "ABCDEFGHIJ" and
"ABC". -/
theorem C9_cmp_equal_conditions_witness :
    (0 ∉ ([65, 66, 67, 68, 69, 70, 71, 72, 73, 74] : List Nat)) ∧
    (0 ∉ ([65, 66, 67] : List Nat)) ∧
    ((_map_key_cmp (_map_key_init [65, 66, 67, 68, 69, 70, 71, 72, 73, 74])
        (_map_key_init [65, 66, 67]) = 0 →
      (_map_key_init [65, 66, 67, 68, 69, 70, 71, 72, 73, 74]).hash
        = (_map_key_init [65, 66, 67]).hash ∧
      (∀ wa wb,
        (_map_key_init [65, 66, 67, 68, 69, 70, 71, 72, 73, 74]).key = some wa →
        (_map_key_init [65, 66, 67]).key = some wb → wa = wb)) ∧
    (((_map_key_init [65, 66, 67, 68, 69, 70, 71, 72, 73, 74]).key = none ∨
        (_map_key_init [65, 66, 67]).key = none) →
      _map_key_cmp (_map_key_init [65, 66, 67, 68, 69, 70, 71, 72, 73, 74])
          (_map_key_init [65, 66, 67])
        = memcmpM (_map_key_init [65, 66, 67, 68, 69, 70, 71, 72, 73, 74]).hash
            (_map_key_init [65, 66, 67]).hash)) :=
  ⟨by decide, by decide,
    C9_cmp_equal_conditions [65, 66, 67, 68, 69, 70, 71, 72, 73, 74] [65, 66, 67]
      (by decide) (by decide)⟩

theorem noDummy_removeDummy : ∀ (t : RBT α), (removeDummy t).noDummy = true := by
  intro t
  induction t with
  | nil => rfl
  | dummy => rfl
  | node c l k r ihl ihr => simp [removeDummy, RBT.noDummy, ihl, ihr]

theorem noDummy_setBlack (t : RBT α) : t.setBlack.noDummy = t.noDummy := by
  cases t <;> rfl

theorem noDummy_plugOne {f : Frame α} {t : RBT α}
    (hf : f.other.noDummy = true) (ht : t.noDummy = true) :
    (plugOne f t).noDummy = true := by
  obtain ⟨d, c, k, o⟩ := f
  cases d <;> simp_all [plugOne, RBT.noDummy]

theorem noDummy_plug : ∀ {ctx : List (Frame α)} {t : RBT α},
    (∀ f ∈ ctx, f.other.noDummy = true) → t.noDummy = true →
    (plug ctx t).noDummy = true := by
  intro ctx
  induction ctx with
  | nil => intro t _ ht; exact ht
  | cons f rest ih =>
    intro t hctx ht
    rw [plug_cons]
    exact ih (fun g hg => hctx g (List.mem_cons_of_mem f hg))
      (noDummy_plugOne (hctx f (by simp)) ht)

theorem delFixStepL_noDummy {pc : Col} {pk : α} {w n : RBT α}
    (hw : w.noDummy = true) (hn : n.noDummy = true) :
    (∀ n2, delFixStepL pc pk w n = .inl n2 → n2.noDummy = true) ∧
    (∀ sub, delFixStepL pc pk w n = .inr sub → sub.noDummy = true) := by
  rcases w with _ | _ | ⟨wc, wl, wk, wr⟩
  · have e : delFixStepL pc pk (.nil : RBT α) n = .inr (.node pc n pk .nil) := rfl
    constructor <;> intro z hz <;> rw [e] at hz
    · cases hz
    · cases hz
      simp [RBT.noDummy, hn]
  · simp [RBT.noDummy] at hw
  · have hcomp : wl.noDummy = true ∧ wr.noDummy = true := by
      simpa [RBT.noDummy] using hw
    by_cases hb1 : (wl.isBlack && wr.isBlack) = true
    · have e : delFixStepL pc pk (.node wc wl wk wr) n
          = .inl (.node pc n pk (.node .red wl wk wr)) := by
        simp [delFixStepL, hb1]
      constructor <;> intro z hz <;> rw [e] at hz
      · cases hz
        simp [RBT.noDummy, hcomp.1, hcomp.2, hn]
      · cases hz
    · by_cases hb2 : wr.isBlack = true
      · have hwlred : wl.rootCol = .red := by
          apply isRed_true_rootCol
          simp [RBT.isBlack] at hb1 hb2
          cases hwl : wl.isRed with
          | true => rfl
          | false => exact absurd (hb1 hwl) (by simp [hb2])
        obtain ⟨a, x, b, rfl⟩ := rootCol_red_node hwlred
        have habn : a.noDummy = true ∧ b.noDummy = true := by
          simpa [RBT.noDummy] using hcomp.1
        have e : delFixStepL pc pk (.node wc (.node .red a x b) wk wr) n
            = .inr (.node pc (.node .black n pk a) x (.node .black b wk wr)) := by
          simp [delFixStepL, hb1, hb2, RBT.setBlack,
            show (RBT.node Col.red a x b).isBlack = false from rfl]
        constructor <;> intro z hz <;> rw [e] at hz
        · cases hz
        · cases hz
          simp [RBT.noDummy, habn.1, habn.2, hcomp.2, hn]
      · have e : delFixStepL pc pk (.node wc wl wk wr) n
            = .inr (.node pc (.node .black n pk wl) wk wr.setBlack) := by
          simp [delFixStepL, hb1, hb2]
        constructor <;> intro z hz <;> rw [e] at hz
        · cases hz
        · cases hz
          simp [RBT.noDummy, noDummy_setBlack, hcomp.1, hcomp.2, hn]

theorem delFixStepR_noDummy {pc : Col} {pk : α} {w n : RBT α}
    (hw : w.noDummy = true) (hn : n.noDummy = true) :
    (∀ n2, delFixStepR pc pk w n = .inl n2 → n2.noDummy = true) ∧
    (∀ sub, delFixStepR pc pk w n = .inr sub → sub.noDummy = true) := by
  rcases w with _ | _ | ⟨wc, wl, wk, wr⟩
  · have e : delFixStepR pc pk (.nil : RBT α) n = .inr (.node pc .nil pk n) := rfl
    constructor <;> intro z hz <;> rw [e] at hz
    · cases hz
    · cases hz
      simp [RBT.noDummy, hn]
  · simp [RBT.noDummy] at hw
  · have hcomp : wl.noDummy = true ∧ wr.noDummy = true := by
      simpa [RBT.noDummy] using hw
    by_cases hb1 : (wl.isBlack && wr.isBlack) = true
    · have e : delFixStepR pc pk (.node wc wl wk wr) n
          = .inl (.node pc (.node .red wl wk wr) pk n) := by
        simp [delFixStepR, hb1]
      constructor <;> intro z hz <;> rw [e] at hz
      · cases hz
        simp [RBT.noDummy, hcomp.1, hcomp.2, hn]
      · cases hz
    · by_cases hb2 : wl.isBlack = true
      · have hwrred : wr.rootCol = .red := by
          apply isRed_true_rootCol
          simp [RBT.isBlack] at hb1 hb2
          exact hb1 hb2
        obtain ⟨e2, y, f, rfl⟩ := rootCol_red_node hwrred
        have hefn : e2.noDummy = true ∧ f.noDummy = true := by
          simpa [RBT.noDummy] using hcomp.2
        have e : delFixStepR pc pk (.node wc wl wk (.node .red e2 y f)) n
            = .inr (.node pc (.node .black wl wk e2) y (.node .black f pk n)) := by
          simp [delFixStepR, hb1, hb2, RBT.setBlack,
            show (RBT.node Col.red e2 y f).isBlack = false from rfl]
        constructor <;> intro z hz <;> rw [e] at hz
        · cases hz
        · cases hz
          simp [RBT.noDummy, hefn.1, hefn.2, hcomp.1, hn]
      · have e : delFixStepR pc pk (.node wc wl wk wr) n
            = .inr (.node pc wl.setBlack wk (.node .black wr pk n)) := by
          simp [delFixStepR, hb1, hb2]
        constructor <;> intro z hz <;> rw [e] at hz
        · cases hz
        · cases hz
          simp [RBT.noDummy, noDummy_setBlack, hcomp.1, hcomp.2, hn]

theorem delete_fixup_noDummy : ∀ {ctx : List (Frame α)} {n : RBT α},
    (∀ f ∈ ctx, f.other.noDummy = true) → n.noDummy = true →
    (_rbtree_delete_fixup ctx n).noDummy = true := by
  intro ctx
  induction ctx with
  | nil =>
    intro n _ hn
    rw [show _rbtree_delete_fixup ([] : List (Frame α)) n = n.setBlack from rfl,
      noDummy_setBlack]
    exact hn
  | cons f rest ih =>
    intro n hctx hn
    obtain ⟨d, pc, pk, po⟩ := f
    have hpo : po.noDummy = true := hctx ⟨d, pc, pk, po⟩ (List.mem_cons_self _ _)
    have hrest : ∀ g ∈ rest, g.other.noDummy = true :=
      fun g hg => hctx g (List.mem_cons_of_mem _ hg)
    cases d with
    | left =>
      by_cases hir : n.isRed = true
      · rw [show _rbtree_delete_fixup (⟨.left, pc, pk, po⟩ :: rest) n
            = plug (⟨.left, pc, pk, po⟩ :: rest) n.setBlack from by
          simp [_rbtree_delete_fixup, hir]]
        exact noDummy_plug hctx (by rw [noDummy_setBlack]; exact hn)
      · rcases po with _ | _ | ⟨wc, wl, wk, wr⟩
        · rw [show _rbtree_delete_fixup (⟨.left, pc, pk, .nil⟩ :: rest) n
              = (match delFixStepL pc pk .nil n with
                 | .inl n2 => _rbtree_delete_fixup rest n2
                 | .inr sub => (plug rest sub).setBlack) from by
            simp [_rbtree_delete_fixup, hir]]
          rcases hstep : delFixStepL pc pk (.nil : RBT α) n with n2 | sub
          · exact ih hrest ((delFixStepL_noDummy hpo hn).1 n2 hstep)
          · rw [noDummy_setBlack]
            exact noDummy_plug hrest ((delFixStepL_noDummy hpo hn).2 sub hstep)
        · simp [RBT.noDummy] at hpo
        · have hwlr : wl.noDummy = true ∧ wr.noDummy = true := by
            simpa [RBT.noDummy] using hpo
          cases wc with
          | red =>
            rw [show _rbtree_delete_fixup (⟨.left, pc, pk, .node .red wl wk wr⟩ :: rest) n
                = (match delFixStepL .red pk wl n with
                   | .inl n2 => plug (⟨.left, .black, wk, wr⟩ :: rest) n2.setBlack
                   | .inr sub => (plug (⟨.left, .black, wk, wr⟩ :: rest) sub).setBlack)
                from by simp [_rbtree_delete_fixup, hir]]
            have hctx2 : ∀ g ∈ (⟨.left, .black, wk, wr⟩ :: rest : List (Frame α)),
                g.other.noDummy = true := by
              intro g hg
              rcases List.mem_cons.mp hg with rfl | hg
              · exact hwlr.2
              · exact hrest g hg
            rcases hstep : delFixStepL .red pk wl n with n2 | sub
            · exact noDummy_plug hctx2
                (by rw [noDummy_setBlack]
                    exact (delFixStepL_noDummy hwlr.1 hn).1 n2 hstep)
            · rw [noDummy_setBlack]
              exact noDummy_plug hctx2 ((delFixStepL_noDummy hwlr.1 hn).2 sub hstep)
          | black =>
            rw [show _rbtree_delete_fixup
                  (⟨.left, pc, pk, .node .black wl wk wr⟩ :: rest) n
                = (match delFixStepL pc pk (.node .black wl wk wr) n with
                   | .inl n2 => _rbtree_delete_fixup rest n2
                   | .inr sub => (plug rest sub).setBlack) from by
              simp [_rbtree_delete_fixup, hir]]
            rcases hstep : delFixStepL pc pk (RBT.node .black wl wk wr) n with n2 | sub
            · exact ih hrest ((delFixStepL_noDummy hpo hn).1 n2 hstep)
            · rw [noDummy_setBlack]
              exact noDummy_plug hrest ((delFixStepL_noDummy hpo hn).2 sub hstep)
    | right =>
      by_cases hir : n.isRed = true
      · rw [show _rbtree_delete_fixup (⟨.right, pc, pk, po⟩ :: rest) n
            = plug (⟨.right, pc, pk, po⟩ :: rest) n.setBlack from by
          simp [_rbtree_delete_fixup, hir]]
        exact noDummy_plug hctx (by rw [noDummy_setBlack]; exact hn)
      · rcases po with _ | _ | ⟨wc, wl, wk, wr⟩
        · rw [show _rbtree_delete_fixup (⟨.right, pc, pk, .nil⟩ :: rest) n
              = (match delFixStepR pc pk .nil n with
                 | .inl n2 => _rbtree_delete_fixup rest n2
                 | .inr sub => (plug rest sub).setBlack) from by
            simp [_rbtree_delete_fixup, hir]]
          rcases hstep : delFixStepR pc pk (.nil : RBT α) n with n2 | sub
          · exact ih hrest ((delFixStepR_noDummy hpo hn).1 n2 hstep)
          · rw [noDummy_setBlack]
            exact noDummy_plug hrest ((delFixStepR_noDummy hpo hn).2 sub hstep)
        · simp [RBT.noDummy] at hpo
        · have hwlr : wl.noDummy = true ∧ wr.noDummy = true := by
            simpa [RBT.noDummy] using hpo
          cases wc with
          | red =>
            rw [show _rbtree_delete_fixup
                  (⟨.right, pc, pk, .node .red wl wk wr⟩ :: rest) n
                = (match delFixStepR .red pk wr n with
                   | .inl n2 => plug (⟨.right, .black, wk, wl⟩ :: rest) n2.setBlack
                   | .inr sub => (plug (⟨.right, .black, wk, wl⟩ :: rest) sub).setBlack)
                from by simp [_rbtree_delete_fixup, hir]]
            have hctx2 : ∀ g ∈ (⟨.right, .black, wk, wl⟩ :: rest : List (Frame α)),
                g.other.noDummy = true := by
              intro g hg
              rcases List.mem_cons.mp hg with rfl | hg
              · exact hwlr.1
              · exact hrest g hg
            rcases hstep : delFixStepR .red pk wr n with n2 | sub
            · exact noDummy_plug hctx2
                (by rw [noDummy_setBlack]
                    exact (delFixStepR_noDummy hwlr.2 hn).1 n2 hstep)
            · rw [noDummy_setBlack]
              exact noDummy_plug hctx2 ((delFixStepR_noDummy hwlr.2 hn).2 sub hstep)
          | black =>
            rw [show _rbtree_delete_fixup
                  (⟨.right, pc, pk, .node .black wl wk wr⟩ :: rest) n
                = (match delFixStepR pc pk (.node .black wl wk wr) n with
                   | .inl n2 => _rbtree_delete_fixup rest n2
                   | .inr sub => (plug rest sub).setBlack) from by
              simp [_rbtree_delete_fixup, hir]]
            rcases hstep : delFixStepR pc pk (RBT.node .black wl wk wr) n with n2 | sub
            · exact ih hrest ((delFixStepR_noDummy hpo hn).1 n2 hstep)
            · rw [noDummy_setBlack]
              exact noDummy_plug hrest ((delFixStepR_noDummy hpo hn).2 sub hstep)

theorem zoomAux_noDummy : ∀ (p : List Dir) (t : RBT α) (acc ctx : List (Frame α))
    (f : RBT α), t.noDummy = true → (∀ g ∈ acc, g.other.noDummy = true) →
    zoomAux t p acc = some (ctx, f) →
    (∀ g ∈ ctx, g.other.noDummy = true) ∧ f.noDummy = true := by
  intro p
  induction p with
  | nil =>
    intro t acc ctx f ht hacc hz
    rw [show zoomAux t [] acc = some (acc, t) from by cases t <;> rfl] at hz
    obtain ⟨rfl, rfl⟩ : acc = ctx ∧ t = f := by simpa using hz
    exact ⟨hacc, ht⟩
  | cons dd p ih =>
    intro t acc ctx f ht hacc hz
    rcases t with _ | _ | ⟨c, l, k, r⟩
    · rw [show zoomAux (.nil : RBT α) (dd :: p) acc = none from rfl] at hz
      cases hz
    · rw [show zoomAux (.dummy : RBT α) (dd :: p) acc = none from rfl] at hz
      cases hz
    · have hlr : l.noDummy = true ∧ r.noDummy = true := by
        simpa [RBT.noDummy] using ht
      cases dd with
      | left =>
        rw [show zoomAux (.node c l k r) (.left :: p) acc
            = zoomAux l p (⟨.left, c, k, r⟩ :: acc) from rfl] at hz
        refine ih l _ ctx f hlr.1 ?_ hz
        intro g hg
        rcases List.mem_cons.mp hg with rfl | hg
        · exact hlr.2
        · exact hacc g hg
      | right =>
        rw [show zoomAux (.node c l k r) (.right :: p) acc
            = zoomAux r p (⟨.right, c, k, l⟩ :: acc) from rfl] at hz
        refine ih r _ ctx f hlr.2 ?_ hz
        intro g hg
        rcases List.mem_cons.mp hg with rfl | hg
        · exact hlr.1
        · exact hacc g hg

theorem extractMin_noDummy : ∀ (t : RBT α) (acc : List (Frame α)) (k : α) (c : Col)
    (sr : RBT α) (inner : List (Frame α)),
    t.noDummy = true → (∀ g ∈ acc, g.other.noDummy = true) →
    extractMin t acc = some (k, c, sr, inner) →
    (∀ g ∈ inner, g.other.noDummy = true) ∧ sr.noDummy = true := by
  intro t
  induction t with
  | nil =>
    intro acc k c sr inner _ _ hz
    rw [show extractMin (.nil : RBT α) acc = none from rfl] at hz
    cases hz
  | dummy =>
    intro acc k c sr inner ht _ _
    simp [RBT.noDummy] at ht
  | node tc l tk r ihl ihr =>
    intro acc k c sr inner ht hacc hz
    have hlr : l.noDummy = true ∧ r.noDummy = true := by
      simpa [RBT.noDummy] using ht
    rcases l with _ | _ | ⟨lc, la, lk, lb⟩
    · rw [show extractMin (.node tc .nil tk r) acc = some (tk, tc, r, acc) from rfl] at hz
      obtain ⟨rfl, rfl, rfl, rfl⟩ : tk = k ∧ tc = c ∧ r = sr ∧ acc = inner := by
        simpa using hz
      exact ⟨hacc, hlr.2⟩
    · simp [RBT.noDummy] at hlr
    · rw [show extractMin (.node tc (.node lc la lk lb) tk r) acc
        = extractMin (.node lc la lk lb) (⟨.left, tc, tk, r⟩ :: acc) from rfl] at hz
      refine ihl _ k c sr inner hlr.1 ?_ hz
      intro g hg
      rcases List.mem_cons.mp hg with rfl | hg
      · exact hlr.2
      · exact hacc g hg

/-- C10: after `rbtree_delete` returns, no node reachable from the
tree's root references the transient stack-local sentinel used during
delete fixup: the sentinel is transplanted out before the function
returns. The hypothesis states that the input tree contains no sentinel,
which holds for every tree the API can produce, since the sentinel is
local to a single `rbtree_delete` call. -/
theorem C10_delete_detaches_sentinel (t : RBT α) (p : List Dir)
    (ht : t.noDummy = true) : (rbtree_delete t p).noDummy = true := by
  cases hz : zoom t p with
  | none =>
    rw [show rbtree_delete t p = t from by simp [rbtree_delete, hz]]
    exact ht
  | some pr =>
    obtain ⟨ctx, f⟩ := pr
    obtain ⟨hctx, hf⟩ := zoomAux_noDummy p t [] ctx f ht (by simp) hz
    rcases f with _ | _ | ⟨nc, nl, nk, nr⟩
    · rw [show rbtree_delete t p = t from by simp [rbtree_delete, hz]]
      exact ht
    · simp [RBT.noDummy] at hf
    · obtain ⟨hnl, hnr⟩ : nl.noDummy = true ∧ nr.noDummy = true := by
        simpa [RBT.noDummy] using hf
      rcases nl with _ | _ | ⟨c1, a1, k1, b1⟩
      · rcases nr with _ | _ | ⟨c2, a2, k2, b2⟩
        · rw [show rbtree_delete t p
              = removeDummy (if nc = .black then _rbtree_delete_fixup ctx .dummy
                  else plug ctx .dummy) from by simp [rbtree_delete, hz]]
          exact noDummy_removeDummy _
        · simp [RBT.noDummy] at hnr
        · rw [show rbtree_delete t p
              = (if nc = .black then _rbtree_delete_fixup ctx (.node c2 a2 k2 b2)
                 else plug ctx (.node c2 a2 k2 b2)) from by simp [rbtree_delete, hz]]
          by_cases hcb : nc = .black
          · rw [if_pos hcb]
            exact delete_fixup_noDummy hctx hnr
          · rw [if_neg hcb]
            exact noDummy_plug hctx hnr
      · simp [RBT.noDummy] at hnl
      · rcases nr with _ | _ | ⟨c2, a2, k2, b2⟩
        · rw [show rbtree_delete t p
              = (if nc = .black then _rbtree_delete_fixup ctx (.node c1 a1 k1 b1)
                 else plug ctx (.node c1 a1 k1 b1)) from by simp [rbtree_delete, hz]]
          by_cases hcb : nc = .black
          · rw [if_pos hcb]
            exact delete_fixup_noDummy hctx hnl
          · rw [if_neg hcb]
            exact noDummy_plug hctx hnl
        · simp [RBT.noDummy] at hnr
        · cases hem : extractMin (RBT.node c2 a2 k2 b2) [] with
          | none =>
            rw [show rbtree_delete t p = t from by simp [rbtree_delete, hz, hem]]
            exact ht
          | some q =>
            obtain ⟨sk, sc, sr, inner⟩ := q
            obtain ⟨hinner, hsr⟩ :=
              extractMin_noDummy _ [] sk sc sr inner hnr (by simp) hem
            have hfull : ∀ g ∈
                (inner ++ ⟨.right, nc, sk, .node c1 a1 k1 b1⟩ :: ctx : List (Frame α)),
                g.other.noDummy = true := by
              intro g hg
              rcases List.mem_append.mp hg with hg | hg
              · exact hinner g hg
              · rcases List.mem_cons.mp hg with rfl | hg
                · exact hnl
                · exact hctx g hg
            rcases sr with _ | _ | ⟨c3, a3, k3, b3⟩
            · rw [show rbtree_delete t p
                  = removeDummy (if sc = .black
                      then _rbtree_delete_fixup
                        (inner ++ ⟨.right, nc, sk, .node c1 a1 k1 b1⟩ :: ctx) .dummy
                      else plug
                        (inner ++ ⟨.right, nc, sk, .node c1 a1 k1 b1⟩ :: ctx) .dummy)
                  from by simp [rbtree_delete, hz, hem]]
              exact noDummy_removeDummy _
            · simp [RBT.noDummy] at hsr
            · rw [show rbtree_delete t p
                  = (if sc = .black
                     then _rbtree_delete_fixup
                       (inner ++ ⟨.right, nc, sk, .node c1 a1 k1 b1⟩ :: ctx)
                       (.node c3 a3 k3 b3)
                     else plug (inner ++ ⟨.right, nc, sk, .node c1 a1 k1 b1⟩ :: ctx)
                       (.node c3 a3 k3 b3))
                  from by simp [rbtree_delete, hz, hem]]
              by_cases hcb : sc = .black
              · rw [if_pos hcb]
                exact delete_fixup_noDummy hfull hsr
              · rw [if_neg hcb]
                exact noDummy_plug hfull hsr

/-- Witness for C10: deleting the root of the one-node tree holding
key 1. -/
theorem C10_delete_detaches_sentinel_witness :
    (RBT.node .black .nil (1 : Int) .nil).noDummy = true ∧
    (rbtree_delete (RBT.node .black .nil (1 : Int) .nil) []).noDummy = true :=
  ⟨by decide, C10_delete_detaches_sentinel (RBT.node .black .nil (1 : Int) .nil) []
    (by decide)⟩
